import Mathlib

/-!
Verification of the test-oracle generation pipeline of `dev/generate-tests.py`
(the awkward-array kernel test generator).

The pipeline is shallowly embedded: Python values become the inductive `PyVal`
(with Python's `bool <: int` subtyping reflected in `isinstanceTC`), Python
exceptions become the `PyErr` error monad, dictionaries become association
lists, and the reference callables (`funcPy`) become explicit functions
`Env → Env × Option PyErr` returning the post-call (possibly mutated)
environment together with an optional raised exception.
-/

/-- Python exception classes relevant to the generator. -/
inductive PyErr where
  | valueError
  | typeError
  | keyError
  | assertionError
  | nameError
  | stopIteration
deriving DecidableEq, Repr

/-- Python runtime values flowing through the generator: ints, bools, floats
(modelled as rationals; the generator never performs float arithmetic),
lists, and integer-keyed dictionaries (the sparse output accumulators). -/
inductive PyVal where
  | int (n : Int)
  | bool (b : Bool)
  | float (q : Rat)
  | list (xs : List PyVal)
  | dict (d : List (Nat × PyVal))
deriving Repr

/-- An ordered string-keyed dictionary (Python `dict` / `OrderedDict`). -/
abbrev Env := List (String × PyVal)

/-- Python `d[k]` lookup on a string-keyed dict. -/
def odGet (env : Env) (k : String) : Option PyVal :=
  (env.find? (fun p => p.1 == k)).map (fun p => p.2)

/-- Python `d[k] = v`: replace the first entry with key `k` in place
(dicts keep insertion position on re-assignment), else append. -/
def odSet (env : Env) (k : String) (v : PyVal) : Env :=
  match env with
  | [] => [(k, v)]
  | (k0, v0) :: rest =>
      if k0 == k then (k0, v) :: rest else (k0, v0) :: odSet rest k v

/-- Same update operation for the `funcpassdict` mapping names to value lists. -/
def odSetL (env : List (String × List PyVal)) (k : String) (v : List PyVal) :
    List (String × List PyVal) :=
  match env with
  | [] => [(k, v)]
  | (k0, v0) :: rest =>
      if k0 == k then (k0, v) :: rest else (k0, v0) :: odSetL rest k v

/-- Lookup in the `funcpassdict` mapping. -/
def odGetL (env : List (String × List PyVal)) (k : String) : Option (List PyVal) :=
  (env.find? (fun p => p.1 == k)).map (fun p => p.2)

/-! ### String utilities (Python `in`, `replace`, `rstrip`, slicing) -/

/-- Helper for substring containment: does `needle` occur in the char list? -/
def subAux (needle : List Char) : List Char → Bool
  | [] => needle.isEmpty
  | c :: cs => needle.isPrefixOf (c :: cs) || subAux needle cs

/-- Python `needle in hay` on strings. -/
def hasSub (needle hay : String) : Bool := subAux needle.toList hay.toList

/-- Helper for `str.replace`: replace every occurrence of `p :: ps` by `rep`.
The fuel argument (instantiated with the string length, which bounds the
number of steps since every step consumes at least one character) keeps the
recursion structural. -/
def replaceAllAux (p : Char) (ps rep : List Char) : Nat → List Char → List Char
  | _, [] => []
  | 0, s => s
  | fuel + 1, c :: cs =>
      if (p :: ps).isPrefixOf (c :: cs) then
        rep ++ replaceAllAux p ps rep fuel (cs.drop ps.length)
      else
        c :: replaceAllAux p ps rep fuel cs

/-- Python `s.replace(pat, rep)` (all occurrences). -/
def pyReplaceAll (s pat rep : String) : String :=
  match pat.toList with
  | [] => s
  | p :: ps => String.mk (replaceAllAux p ps rep.toList s.toList.length s.toList)

/-- Helper for `str.replace(pat, rep, 1)`: replace the first occurrence only. -/
def replaceOnceAux (p : Char) (ps rep : List Char) : List Char → List Char
  | [] => []
  | c :: cs =>
      if (p :: ps).isPrefixOf (c :: cs) then rep ++ cs.drop ps.length
      else c :: replaceOnceAux p ps rep cs

/-- Python `s.replace(pat, rep, 1)`. -/
def pyReplaceOnce (s pat rep : String) : String :=
  match pat.toList with
  | [] => s
  | p :: ps => String.mk (replaceOnceAux p ps rep.toList s.toList)

/-- Python `s.rstrip("]")`: drop all trailing `]` characters. -/
def pyRstripBracket (s : String) : String :=
  String.mk ((s.toList.reverse.dropWhile (fun c => c == ']')).reverse)

/-- Python `s[:-1]`. -/
def strDropLast (s : String) : String :=
  String.mk (s.toList.take (s.toList.length - 1))

/-- Index of the first `-` in a role string (Python `s.find("-")`,
`none` standing for `-1`). -/
def pyFindDash (s : String) : Option Nat := s.toList.findIdx? (fun c => c == '-')

/-- Python `arg.role[: arg.role.find("-")]`: the role-group key.  When no dash is
present Python's `find` returns `-1` and the slice drops the last character. -/
def pyRoleGroup (s : String) : String :=
  match pyFindDash s with
  | some i => String.mk (s.toList.take i)
  | none => String.mk (s.toList.take (s.toList.length - 1))

/-- Python `arg.role[arg.role.find("-") :]`: the role suffix starting at the dash
(or the last character when there is no dash, mirroring `s[-1:]`). -/
def pyRoleSuffixOf (s : String) : String :=
  match pyFindDash s with
  | some i => String.mk (s.toList.drop i)
  | none => String.mk (s.toList.drop (s.toList.length - 1))

/-! ### `gettypeval`, `getdummyvalue`, `dicttolist` -/

/-- Function `gettypeval(typename)` from `dev/generate-tests.py`: the canonical
placeholder value of a type descriptor; raises `ValueError` on an
unrecognized descriptor.  Note `"int" in typename` also matches every
`uint` descriptor. -/
def gettypeval (typename : String) : Except PyErr PyVal :=
  if hasSub "int" typename then .ok (.int 123)
  else if hasSub "bool" typename then .ok (.bool true)
  else if hasSub "double" typename || hasSub "float" typename then .ok (.float 123)
  else .error .valueError

/-- Method `Specification.getdummyvalue`: `[gettypeval(typename)] * length`. -/
def getdummyvalue (typename : String) (length : Nat) : Except PyErr (List PyVal) := do
  let tv ← gettypeval typename
  return List.replicate length tv

/-- Lookup `outputdict[num]` with a fallback (the fallback is never reached when
`num` really is a key of the dict). -/
def dictGetD (d : List (Nat × PyVal)) (k : Nat) (dflt : PyVal) : PyVal :=
  match d.find? (fun p => p.1 == k) with
  | some p => p.2
  | none => dflt

/-- The linearization loop of `Specification.dicttolist`: walk the sorted key
list keeping the running `count`; a key `k` ahead of `count` first emits
`k - count` placeholder values, then the stored value, and `count` resumes
at `k + 1`. -/
def linearize (tv : PyVal) (d : List (Nat × PyVal)) : Nat → List Nat → List PyVal
  | _, [] => []
  | count, k :: ks =>
      List.replicate (k - count) tv ++ dictGetD d k tv :: linearize tv d (k + 1) ks

/-- Method `Specification.dicttolist(outputdict, typename)`: densify a sparse
index-to-value mapping, scanning keys in ascending order (`sorted(outputdict)`)
and filling gaps with the type's placeholder value. -/
def dicttolist (d : List (Nat × PyVal)) (typename : String) :
    Except PyErr (List PyVal) := do
  let tv ← gettypeval typename
  return linearize tv d 0 (List.insertionSort (fun a b => a ≤ b) (d.map Prod.fst))

/-! ### `typevalidates` and `validateoverflow` -/

/-- Python classes a generated placeholder can have; used for the
`isinstance(x, type(gettypeval(t)))` check. -/
inductive PyClass where
  | int
  | bool
  | float
deriving DecidableEq, Repr

/-- Python `type(v)` for a placeholder value produced by `gettypeval`. -/
def classOf : PyVal → PyClass
  | .int _ => .int
  | .bool _ => .bool
  | .float _ => .float
  | .list _ => .int
  | .dict _ => .int

/-- Python `isinstance(v, c)`; `bool` is a subclass of `int`, so every bool
is an instance of `int`, but `123` is not an instance of `bool`. -/
def isinstanceTC (v : PyVal) (c : PyClass) : Bool :=
  match c, v with
  | .int, .int _ => true
  | .int, .bool _ => true
  | .bool, .bool _ => true
  | .float, .float _ => true
  | _, _ => false

/-- One kernel argument (`Argument` in the source): name, type descriptor,
direction (`"in"`/`"out"`), and role (defaulting to `"default"`). -/
structure Argument where
  name : String
  typename : String
  direction : String
  role : String
deriving Repr

/-- Constructor `Argument.__init__` with `role` defaulting to `"default"`. -/
def mkArgument (name typename direction : String) (role : Option String) : Argument :=
  ⟨name, typename, direction, role.getD "default"⟩

/-- Method `Specification.typevalidates(testdict, arglist)`: for each argument, a
list value must be nonempty and its first element must be an instance of the
placeholder's class; a non-list value must itself be such an instance.
Returns `False` on the first mismatch; an unrecognized type descriptor
raises `ValueError`. -/
def typevalidates (testdict : Env) : List Argument → Except PyErr Bool
  | [] => .ok true
  | arg :: rest =>
    match odGet testdict arg.name with
    | none => .error .keyError
    | some v =>
      match v with
      | .list [] => .ok false
      | .list (x :: _) => do
          let tv ← gettypeval arg.typename
          if isinstanceTC x (classOf tv) then typevalidates testdict rest
          else .ok false
      | _ => do
          let tv ← gettypeval arg.typename
          if isinstanceTC v (classOf tv) then typevalidates testdict rest
          else .ok false

/-- Python `n < 0` inside the `any(...)` generators; comparing a list or a
dict with `0` raises `TypeError`. -/
def pyLtZero : PyVal → Except PyErr Bool
  | .int n => .ok (n < 0)
  | .bool _ => .ok false
  | .float q => .ok (q < 0)
  | .list _ => .error .typeError
  | .dict _ => .error .typeError

/-- Python `any(n < 0 for n in xs)`: short-circuits at the first `True`. -/
def pyAnyNeg : List PyVal → Except PyErr Bool
  | [] => .ok false
  | x :: xs => do
      let b ← pyLtZero x
      if b then return true else pyAnyNeg xs

/-- Python iteration `for n in v`: lists yield elements, dicts yield their
(integer) keys, scalars raise `TypeError`. -/
def pyIter : PyVal → Except PyErr (List PyVal)
  | .list xs => .ok xs
  | .dict d => .ok (d.map (fun p => .int (p.1 : Int)))
  | _ => .error .typeError

/-- The final test-case record (`tempdict` in `Specification.gettests`):
`outargs` is present exactly on success. -/
structure TestCase where
  inargs : Env
  outargs : Option Env
  success : Bool
deriving Repr

/-- Method `Specification.validateoverflow(testvals)`: for every argument whose
type descriptor contains `"uint"`, the flag is cleared when any top-level
element of its `inargs` value is negative, or — failing that — any top-level
element of its `outargs` value (when `outargs` is present and holds the
argument).  The scan continues over the remaining arguments either way. -/
def validateoverflow (args : List Argument) (t : TestCase) : Except PyErr Bool :=
  args.foldlM
    (fun flag arg => do
      if hasSub "uint" arg.typename then
        match odGet t.inargs arg.name with
        | none => .error .keyError
        | some vin => do
            let its ← pyIter vin
            let b1 ← pyAnyNeg its
            let b ←
              if b1 then pure true
              else
                match t.outargs with
                | none => pure false
                | some oa =>
                  match odGet oa arg.name with
                  | none => pure false
                  | some vo => do
                      let its2 ← pyIter vo
                      pyAnyNeg its2
            return (if b then false else flag)
      else
        return flag)
    true

/-! ### Combination generation (`Specification.gettests`, lines 112-155) -/

/-- A key of `instancedict`: default-role arguments use `str(count)`, role
arguments use the text before the dash of their role tag.  Key equality is
Python string equality; `str` renders naturals injectively, so two default
keys compare by their counters. -/
inductive GroupKey where
  | default (n : Nat)
  | named (s : String)
deriving Repr

/-- Python `==` on `instancedict` keys (string equality after `str(count)`
rendering). -/
def GroupKey.beq : GroupKey → GroupKey → Bool
  | .default n, .default m => n == m
  | .default n, .named s => toString n == s
  | .named s, .default n => s == toString n
  | .named s, .named t => s == t

/-- Python `group in instancedict.keys()`. -/
def idMem (id : List (GroupKey × List String)) (g : GroupKey) : Bool :=
  id.any (fun p => GroupKey.beq p.1 g)

/-- Python `instancedict[group].append(arg.name)`: append to this key. -/
def idAppendArg (id : List (GroupKey × List String)) (g : GroupKey) (nm : String) :
    List (GroupKey × List String) :=
  match id with
  | [] => []
  | (k, l) :: rest =>
      if GroupKey.beq k g then (k, l ++ [nm]) :: rest
      else (k, l) :: idAppendArg rest g nm

/-- Lookup `instancedict[group]`. -/
def idGetArgs (id : List (GroupKey × List String)) (g : GroupKey) : List String :=
  ((id.find? (fun p => GroupKey.beq p.1 g)).map (fun p => p.2)).getD []

/-- One row of a role group's fixture table: a mapping from role key to value. -/
abbrev FixRow := List (String × PyVal)

/-- The fixture corpus `testdata` (from `kernel-test-data.json`): the generic
`"num"` entry plus the role-group tables. -/
structure TestData where
  num : PyVal
  groups : List (String × List FixRow)

/-- Python `key in testdata.keys()`. -/
def tdHasKey (td : TestData) (k : String) : Bool :=
  k == "num" || (td.groups.find? (fun p => p.1 == k)).isSome

/-- Lookup `testdata[key]` as a role-group table; `"num"` (a flat list, not a table)
yields `none`, standing for the `TypeError` Python would raise on indexing
its entries with a string. -/
def tdRows (td : TestData) (k : String) : Option (List FixRow) :=
  (td.groups.find? (fun p => p.1 == k)).map (fun p => p.2)

/-- Row lookup `testdata[pseudogroup][x][role]`. -/
def rowGet (row : FixRow) (k : String) : Option PyVal :=
  (row.find? (fun p => p.1 == k)).map (fun p => p.2)

/-- The loop state of the first phase of `gettests` (lines 113-140):
`instancedict`, `funcpassdict`, the default-group counter `count`, and the
function-local `pseudogroup`, which is unbound (`none`) until a role
argument's fixture lookup first assigns it and keeps its stale value when
neither the group key nor its singular form is present. -/
structure Ph1State where
  instancedict : List (GroupKey × List String)
  funcpassdict : List (String × List PyVal)
  count : Nat
  pseudogroup : Option String

/-- One iteration of the argument loop of `gettests` (lines 117-140). -/
def ph1Step (td : TestData) (st : Ph1State) (arg : Argument) : Except PyErr Ph1State :=
  let fpd0 := odSetL st.funcpassdict arg.name []
  if arg.role == "default" then
    let g := GroupKey.default st.count
    if idMem st.instancedict g then .error .assertionError
    else
      let v := if arg.direction == "out" then PyVal.dict [] else td.num
      .ok { instancedict := st.instancedict ++ [(g, [arg.name])],
            funcpassdict := odSetL fpd0 arg.name [v],
            count := st.count + 1,
            pseudogroup := st.pseudogroup }
  else
    let gs := pyRoleGroup arg.role
    let g := GroupKey.named gs
    let id1 := if idMem st.instancedict g then st.instancedict
               else st.instancedict ++ [(g, [])]
    let id2 := idAppendArg id1 g arg.name
    let pg : Option String :=
      if !tdHasKey td gs && tdHasKey td (strDropLast gs) then some (strDropLast gs)
      else if tdHasKey td gs then some gs
      else st.pseudogroup
    match pg with
    | none => .error .nameError
    | some pgs =>
      let role := pgs ++ pyRoleSuffixOf arg.role
      match tdRows td pgs with
      | none => .error .typeError
      | some rows => do
          let vals ← rows.mapM (fun row =>
            match rowGet row role with
            | some v => Except.ok v
            | none => Except.error PyErr.keyError)
          return { instancedict := id2,
                   funcpassdict := odSetL fpd0 arg.name vals,
                   count := st.count,
                   pseudogroup := pg }

/-- The whole argument loop of `gettests`. -/
def phase1 (args : List Argument) (td : TestData) : Except PyErr Ph1State :=
  args.foldlM (ph1Step td) ⟨[], [], 0, none⟩

/-- Minimum length among lists (the length of a Python `zip`). -/
def minLenAux : List (List PyVal) → Nat → Nat
  | [], m => m
  | l :: ls, m => minLenAux ls (min m l.length)

/-- Python `zip(*lists)`: tuples of corresponding elements, truncated to the
shortest list; `zip()` of no lists is empty. -/
def zipN (ls : List (List PyVal)) : List (List PyVal) :=
  match ls with
  | [] => []
  | l :: rest =>
      (List.range (minLenAux rest l.length)).map
        (fun i => (l :: rest).map (fun lj => lj.getD i (PyVal.int 0)))

/-- Python `itertools.product(*combinations)`: rightmost factor varies fastest. -/
def pyProduct : List (List (List PyVal)) → List (List (List PyVal))
  | [] => [[]]
  | l :: rest => (l.map (fun x => (pyProduct rest).map (fun tl => x :: tl))).flatten

/-- The per-group tuple sequences (lines 144-149): for each group in
insertion order, zip together the value sequences of its arguments. -/
def combosOf (st : Ph1State) : List (List (List PyVal)) :=
  (st.instancedict.map Prod.fst).map
    (fun g => zipN ((idGetArgs st.instancedict g).map
      (fun nm => (odGetL st.funcpassdict nm).getD [])))

/-- Build `origtemp` from one selection of the product (lines 152-155). -/
def buildEnv (st : Ph1State) (sel : List (List PyVal)) : Env :=
  ((st.instancedict.map Prod.fst).zip sel).foldl
    (fun env p =>
      ((idGetArgs st.instancedict p.1).zip p.2).foldl
        (fun e q => odSet e q.1 q.2) env)
    []

/-- All raw argument combinations of a kernel, in generation order, before
oracle execution and validation filtering. -/
def rawCombinations (args : List Argument) (td : TestData) :
    Except PyErr (List Env) :=
  (phase1 args td).map (fun st => (pyProduct (combosOf st)).map (buildEnv st))

/-! ### Oracle execution (lines 157-190) -/

/-- Python `len(v)`: lists and dicts have a length, scalars raise `TypeError`. -/
def pyLen : PyVal → Except PyErr Nat
  | .list xs => .ok xs.length
  | .dict d => .ok d.length
  | _ => .error .typeError

/-- The body of the `try` block after `funcPy` returned normally (lines
165-176): out arguments must hold dicts (the `assert`), which are densified;
their `inargs` entry becomes a placeholder buffer of the dense length; in
arguments are recorded as found in the (possibly mutated) assignment.
Returns the `(intests, outtests)` pair. -/
def successBranch (args : List Argument) (env1 : Env) : Except PyErr (Env × Env) :=
  args.foldlM
    (fun (p : Env × Env) arg => do
      if arg.direction == "out" then
        match odGet env1 arg.name with
        | none => .error .keyError
        | some v =>
          match v with
          | .dict d => do
              let l ← dicttolist d arg.typename
              let dummy ← getdummyvalue arg.typename l.length
              return (odSet p.1 arg.name (.list dummy), odSet p.2 arg.name (.list l))
          | _ => .error .assertionError
      else
        match odGet env1 arg.name with
        | none => .error .keyError
        | some v => return (odSet p.1 arg.name v, p.2))
    ([], [])

/-- The `except ValueError` handler (lines 177-185): out arguments are
recorded in `intests` as placeholder buffers whose length is the current
length of the accumulator in the assignment; in arguments as found there. -/
def errorBranch (args : List Argument) (env1 : Env) : Except PyErr Env :=
  args.foldlM
    (fun intests arg => do
      if arg.direction == "out" then
        match odGet env1 arg.name with
        | none => .error .keyError
        | some v => do
            let n ← pyLen v
            let dummy ← getdummyvalue arg.typename n
            return odSet intests arg.name (.list dummy)
      else
        match odGet env1 arg.name with
        | none => .error .keyError
        | some v => return odSet intests arg.name v)
    []

/-- A reference callable (`funcPy`): consumes the bound assignment and
returns the post-call assignment (keyword arguments are passed by reference,
so in-place mutations of lists and accumulator dicts are visible to the
caller) together with `none` on normal return or the raised exception. -/
abbrev KernelImpl := Env → Env × Option PyErr

/-- Execute one combination (lines 157-186): run the callable, then either
assemble the success record, or — exactly when a `ValueError` was raised by
the callable or inside the success path — run the handler; any other
exception propagates. -/
def processCombination (args : List Argument) (impl : KernelImpl) (env : Env) :
    Except PyErr TestCase :=
  let r := impl env
  match r.2 with
  | some PyErr.valueError =>
      (errorBranch args r.1).map (fun intests => ⟨intests, none, false⟩)
  | some e => .error e
  | none =>
      match successBranch args r.1 with
      | .ok p => .ok ⟨p.1, some p.2, true⟩
      | .error PyErr.valueError =>
          (errorBranch args r.1).map (fun intests => ⟨intests, none, false⟩)
      | .error e => .error e

/-- The retention test (lines 187-189): `typevalidates` on the `inargs`, and
only when it returns `True` is `validateoverflow` evaluated (Python `and`
short-circuits). -/
def keepTest (args : List Argument) (t : TestCase) : Except PyErr Bool := do
  let tv ← typevalidates t.inargs args
  if tv then validateoverflow args t else return false

/-- Method `Specification.gettests`: generate the raw combinations, execute each in
order, and append those passing both validators to `allvals`. -/
def gettests (args : List Argument) (impl : KernelImpl) (td : TestData) :
    Except PyErr (List TestCase) := do
  let envs ← rawCombinations args td
  envs.foldlM
    (fun acc env => do
      let t ← processCombination args impl env
      let keep ← keepTest args t
      return (if keep then acc ++ [t] else acc))
    []

/-- Order-explicit reformulation of the same pipeline: process every
combination in generation order into `some`/`none` and keep the hits. -/
def testsInOrder (args : List Argument) (impl : KernelImpl) (td : TestData) :
    Except PyErr (List TestCase) := do
  let envs ← rawCombinations args td
  let picks ← envs.mapM
    (fun env => do
      let t ← processCombination args impl env
      let keep ← keepTest args t
      return (if keep then some t else none))
  return picks.filterMap id

/-! ### `Specification.__init__` (lines 45-64) -/

/-- The kernels hard-excluded from automatic test generation. -/
def noRoleKernels : List String :=
  ["awkward_NumpyArray_sort_asstrings_uint8", "awkward_argsort", "awkward_sort"]

/-- A constructed `Specification`: the `tests` field is computed eagerly at
construction (it is `Except`-valued because `gettests` can raise). -/
structure Specification where
  templatized_kernel_name : String
  name : String
  args : List Argument
  tests : Except PyErr (List TestCase)

/-- Constructor `Specification.__init__`: blacklisted kernels and the `no_role_kernels`
get an empty test list; every other kernel runs `gettests`. -/
def mkSpecification (tkn name : String) (args : List Argument) (impl : KernelImpl)
    (td : TestData) (blacklisted : Bool) : Specification :=
  { templatized_kernel_name := tkn,
    name := name,
    args := args,
    tests :=
      if blacklisted then .ok []
      else if tkn ∈ noRoleKernels then .ok []
      else gettests args impl td }

/-! ### The unit-test path's range validator (`checkintrange`, lines 253-275) -/

/-- Python `next(argument for argument in args if argument.name == arg)`: the first
argument with this name, `StopIteration` when absent. -/
def findArg (args : List Argument) (nm : String) : Except PyErr Argument :=
  match args.find? (fun a => a.name == nm) with
  | some a => .ok a
  | none => .error .stopIteration

/-- Bounds `np.iinfo(dtype).min, np.iinfo(dtype).max` for the integer dtype names
the generator can produce. -/
def npIinfo (dtype : String) : Except PyErr (Int × Int) :=
  if dtype == "int8" then .ok (-128, 127)
  else if dtype == "int16" then .ok (-32768, 32767)
  else if dtype == "int32" then .ok (-2147483648, 2147483647)
  else if dtype == "int64" then .ok (-9223372036854775808, 9223372036854775807)
  else if dtype == "uint8" then .ok (0, 255)
  else if dtype == "uint16" then .ok (0, 65535)
  else if dtype == "uint32" then .ok (0, 4294967295)
  else if dtype == "uint64" then .ok (0, 18446744073709551615)
  else .error .valueError

/-- Function `remove_const(typename)`: drop one leading `Const[` marker and every
trailing `]`. -/
def remove_const (typename : String) : String :=
  if hasSub "Const[" typename then pyRstripBracket (pyReplaceOnce typename "Const[" "")
  else typename

/-- Function `gettypename(spectype)`: strip `List`, brackets, and a `_t` suffix. -/
def gettypename (spectype : String) : String :=
  let t := pyReplaceAll (pyReplaceAll (pyReplaceAll spectype "List" "") "[" "") "]" ""
  if ("_t".toList).isSuffixOf t.toList then String.mk (t.toList.take (t.toList.length - 2))
  else t

/-- The numeric value of a Python scalar in a comparison (`bool` counts as
0/1); lists and dicts do not compare with integers. -/
def pyNumVal : PyVal → Option Rat
  | .int n => some (n : Rat)
  | .bool b => some (if b then 1 else 0)
  | .float q => some q
  | .list _ => none
  | .dict _ => none

/-- Python `min_val <= data <= max_val`; `TypeError` on a non-numeric value. -/
def pyInRange (mn mx : Int) (v : PyVal) : Except PyErr Bool :=
  match pyNumVal v with
  | some q => .ok (decide ((mn : Rat) ≤ q ∧ q ≤ (mx : Rat)))
  | none => .error .typeError

/-- The scan of one argument's value in `checkintrange`: double iteration for
`List[List`, single for `List`, a direct comparison otherwise.  The `flag`
is cleared on any out-of-range scalar but the scan continues. -/
def rangeScan (tn : String) (mn mx : Int) (v : PyVal) (flag : Bool) :
    Except PyErr Bool := do
  if hasSub "List[List" tn then
    let rows ← pyIter v
    rows.foldlM
      (fun fl row => do
        let items ← pyIter row
        items.foldlM
          (fun fl2 dat => do
            let ok ← pyInRange mn mx dat
            return (if ok then fl2 else false))
          fl)
      flag
  else if hasSub "List" tn then
    let items ← pyIter v
    items.foldlM
      (fun fl dat => do
        let ok ← pyInRange mn mx dat
        return (if ok then fl else false))
      flag
  else
    let ok ← pyInRange mn mx v
    return (if ok then flag else false)

/-- Function `checkintrange(test_args, error, args)`: `True` immediately for error
records; otherwise every integer/unsigned-typed argument's scalars are
checked against the dtype's `[min, max]`. -/
def checkintrange (test_args : List (String × PyVal)) (error : Bool)
    (args : List Argument) : Except PyErr Bool :=
  if error then .ok true
  else
    test_args.foldlM
      (fun flag p => do
        let a ← findArg args p.1
        if hasSub "int" (remove_const a.typename) ||
            hasSub "uint" (remove_const a.typename) then do
          let b ← npIinfo (gettypename (remove_const a.typename))
          rangeScan (remove_const a.typename) b.1 b.2 p.2 flag
        else
          return flag)
      true

/-! ### Helper lemmas: association lists -/

theorem odGet_odSet_self (e : Env) (k : String) (v : PyVal) :
    odGet (odSet e k v) k = some v := by
  induction e with
  | nil => simp [odSet, odGet, List.find?]
  | cons p rest ih =>
      obtain ⟨k0, v0⟩ := p
      by_cases h : k0 == k
      · simp [odSet, h, odGet, List.find?]
      · simp only [odSet, h, Bool.false_eq_true, if_false]
        simpa [odGet, List.find?, h] using ih

theorem odGet_odSet_ne (e : Env) (k k' : String) (v : PyVal) (h : k ≠ k') :
    odGet (odSet e k' v) k = odGet e k := by
  induction e with
  | nil =>
      simp only [odSet, odGet, List.find?]
      have : (k' == k) = false := by simpa using fun hq => h hq.symm
      simp [this]
  | cons p rest ih =>
      obtain ⟨k0, v0⟩ := p
      by_cases h0 : k0 == k'
      · have hk : (k0 == k) = false := by
          have : k0 = k' := by simpa using h0
          subst this
          simpa using fun hq => h hq.symm
        simp [odSet, h0, odGet, List.find?, hk]
      · simp only [odSet, h0, Bool.false_eq_true, if_false]
        by_cases hk : k0 == k
        · simp [odGet, List.find?, hk]
        · simpa [odGet, List.find?, hk] using ih

theorem odGetL_odSetL_self (e : List (String × List PyVal)) (k : String) (v : List PyVal) :
    odGetL (odSetL e k v) k = some v := by
  induction e with
  | nil => simp [odSetL, odGetL, List.find?]
  | cons p rest ih =>
      obtain ⟨k0, v0⟩ := p
      by_cases h : k0 == k
      · simp [odSetL, h, odGetL, List.find?]
      · simp only [odSetL, h, Bool.false_eq_true, if_false]
        simpa [odGetL, List.find?, h] using ih

theorem odGetL_odSetL_ne (e : List (String × List PyVal)) (k k' : String) (v : List PyVal)
    (h : k ≠ k') : odGetL (odSetL e k' v) k = odGetL e k := by
  induction e with
  | nil =>
      simp only [odSetL, odGetL, List.find?]
      have : (k' == k) = false := by simpa using fun hq => h hq.symm
      simp [this]
  | cons p rest ih =>
      obtain ⟨k0, v0⟩ := p
      by_cases h0 : k0 == k'
      · have hk : (k0 == k) = false := by
          have : k0 = k' := by simpa using h0
          subst this
          simpa using fun hq => h hq.symm
        simp [odSetL, h0, odGetL, List.find?, hk]
      · simp only [odSetL, h0, Bool.false_eq_true, if_false]
        by_cases hk : k0 == k
        · simp [odGetL, List.find?, hk]
        · simpa [odGetL, List.find?, hk] using ih

/-! ### Helper lemmas: the linearization of `dicttolist` -/

/-- The largest key of a key list (0 for the empty list). -/
def maxKeyL (ks : List Nat) : Nat := ks.foldr max 0

theorem le_maxKeyL {ks : List Nat} {x : Nat} (hx : x ∈ ks) : x ≤ maxKeyL ks := by
  induction ks with
  | nil => cases hx
  | cons k ks ih =>
      rcases List.mem_cons.mp hx with h | h
      · subst h; exact le_max_left _ _
      · exact le_trans (ih h) (le_max_right _ _)

theorem maxKeyL_mem {ks : List Nat} (h : ks ≠ []) : maxKeyL ks ∈ ks := by
  induction ks with
  | nil => exact absurd rfl h
  | cons k ks ih =>
      by_cases hk : ks = []
      · subst hk; simp [maxKeyL]
      · have hmem := ih hk
        have hunfold : maxKeyL (k :: ks) = max k (maxKeyL ks) := rfl
        rcases le_total k (maxKeyL ks) with hle | hle
        · rw [hunfold, max_eq_right hle]
          exact List.mem_cons_of_mem _ hmem
        · rw [hunfold, max_eq_left hle]
          exact List.mem_cons_self _ _

theorem maxKeyL_perm {ks₁ ks₂ : List Nat} (h : ks₁.Perm ks₂) :
    maxKeyL ks₁ = maxKeyL ks₂ := by
  by_cases h1 : ks₁ = []
  · subst h1
    have : ks₂ = [] := h.symm.eq_nil
    simp [this]
  · have h2 : ks₂ ≠ [] := by
      intro hh
      subst hh
      exact h1 h.eq_nil
    have m1 : maxKeyL ks₁ ∈ ks₂ := h.mem_iff.mp (maxKeyL_mem h1)
    have m2 : maxKeyL ks₂ ∈ ks₁ := h.mem_iff.mpr (maxKeyL_mem h2)
    exact le_antisymm (le_maxKeyL m1) (le_maxKeyL m2)

theorem dictGetD_of_mem {d : List (Nat × PyVal)} {k : Nat} {v tv : PyVal}
    (hmem : (k, v) ∈ d) (hnd : (d.map Prod.fst).Nodup) : dictGetD d k tv = v := by
  induction d with
  | nil => cases hmem
  | cons p rest ih =>
      obtain ⟨k0, v0⟩ := p
      simp only [List.map_cons, List.nodup_cons] at hnd
      rcases List.mem_cons.mp hmem with h | h
      · obtain ⟨hk, hv⟩ := Prod.mk.injEq .. ▸ h
        subst hk; subst hv
        simp [dictGetD, List.find?]
      · have hne : (k0 == k) = false := by
          have : k ∈ rest.map Prod.fst := List.mem_map.mpr ⟨(k, v), h, rfl⟩
          simp only [beq_eq_false_iff_ne, ne_eq]
          intro hq; exact hnd.1 (hq ▸ this)
        simp only [dictGetD, List.find?, hne]
        exact ih h hnd.2

theorem linearize_getElem? (tv : PyVal) (d : List (Nat × PyVal)) :
    ∀ (ks : List Nat) (count i : Nat), List.Pairwise (· < ·) ks →
      (∀ k ∈ ks, count ≤ k) → ks ≠ [] → count + i < maxKeyL ks + 1 →
      (linearize tv d count ks)[i]? =
        some (if (count + i) ∈ ks then dictGetD d (count + i) tv else tv) := by
  intro ks
  induction ks with
  | nil => intro count i _ _ hne _; exact absurd rfl hne
  | cons k ks ih =>
      intro count i hp hge hne hi
      have hck : count ≤ k := hge k (List.mem_cons_self _ _)
      have hklt : ∀ x ∈ ks, k < x := fun x hx => (List.pairwise_cons.mp hp).1 x hx
      rcases Nat.lt_trichotomy i (k - count) with hlt | heq | hgt
      · -- inside the replicate-filled gap
        have hileft : i < (List.replicate (k - count) tv).length := by
          simpa using hlt
        rw [linearize, List.getElem?_append_left hileft]
        have hrep : (List.replicate (k - count) tv)[i]? = some tv := by
          rw [List.getElem?_replicate]
          simp [hlt]
        rw [hrep]
        have hnotmem : (count + i) ∉ k :: ks := by
          intro hmem
          rcases List.mem_cons.mp hmem with h | h
          · omega
          · have := hklt _ h; omega
        simp [hnotmem]
      · -- exactly the stored key
        subst heq
        have hkey : count + (k - count) = k := by omega
        rw [linearize]
        have hlen : (List.replicate (k - count) tv).length = k - count := by simp
        rw [List.getElem?_append_right (by simp)]
        simp only [hlen, Nat.sub_self]
        rw [hkey]
        simp [List.mem_cons_self]
      · -- beyond the stored key: recurse
        have hksne : ks ≠ [] := by
          intro hempty
          subst hempty
          have : maxKeyL [k] = k := by simp [maxKeyL]
          omega
        have hmax : maxKeyL (k :: ks) = maxKeyL ks := by
          obtain ⟨x, hx⟩ := List.exists_mem_of_ne_nil ks hksne
          have h1 : k ≤ maxKeyL ks := le_trans (le_of_lt (hklt x hx)) (le_maxKeyL hx)
          have hunfold : maxKeyL (k :: ks) = max k (maxKeyL ks) := rfl
          rw [hunfold]
          exact max_eq_right h1
        rw [hmax] at hi
        have hj : i - (k - count) - 1 + (k + 1) = count + i := by omega
        rw [linearize]
        have hlen : (List.replicate (k - count) tv).length = k - count := by simp
        rw [List.getElem?_append_right (by simp; omega)]
        simp only [hlen]
        have hpos : i - (k - count) ≠ 0 := by omega
        rw [show i - (k - count) = (i - (k - count) - 1) + 1 by omega]
        simp only [List.getElem?_cons_succ]
        have ihres := ih (k + 1) (i - (k - count) - 1)
          (List.pairwise_cons.mp hp).2 (fun x hx => hklt x hx) hksne (by omega)
        rw [show k + 1 + (i - (k - count) - 1) = count + i by omega] at ihres
        rw [ihres]
        by_cases hm : count + i ∈ ks
        · simp [hm, List.mem_cons_of_mem _ hm]
        · have hm2 : count + i ∉ k :: ks := by
            intro hc
            rcases List.mem_cons.mp hc with h | h
            · omega
            · exact hm h
          simp [hm, hm2]

theorem linearize_length (tv : PyVal) (d : List (Nat × PyVal)) :
    ∀ (ks : List Nat) (count : Nat), List.Pairwise (· < ·) ks →
      (∀ k ∈ ks, count ≤ k) → ks ≠ [] →
      (linearize tv d count ks).length = maxKeyL ks + 1 - count := by
  intro ks
  induction ks with
  | nil => intro count _ _ hne; exact absurd rfl hne
  | cons k ks ih =>
      intro count hp hge hne
      have hck : count ≤ k := hge k (List.mem_cons_self _ _)
      have hklt : ∀ x ∈ ks, k < x := fun x hx => (List.pairwise_cons.mp hp).1 x hx
      by_cases hks : ks = []
      · subst hks
        simp only [linearize, List.length_append, List.length_replicate,
          List.length_cons, List.length_nil]
        have : maxKeyL [k] = k := by simp [maxKeyL]
        omega
      · have hrec := ih (k + 1) (List.pairwise_cons.mp hp).2 (fun x hx => hklt x hx) hks
        obtain ⟨x, hx⟩ := List.exists_mem_of_ne_nil ks hks
        have h1 : k + 1 ≤ maxKeyL ks := le_trans (hklt x hx) (le_maxKeyL hx)
        have hmax : maxKeyL (k :: ks) = maxKeyL ks := by
          have hunfold : maxKeyL (k :: ks) = max k (maxKeyL ks) := rfl
          rw [hunfold]
          exact max_eq_right (by omega)
        simp only [linearize, List.length_append, List.length_replicate, List.length_cons]
        rw [hrec, hmax]
        omega

/-- Strictly increasing sorted keys of a duplicate-free dict. -/
theorem sortedKeys_pairwise {d : List (Nat × PyVal)} (hnd : (d.map Prod.fst).Nodup) :
    List.Pairwise (· < ·)
      (List.insertionSort (fun a b => a ≤ b) (d.map Prod.fst)) := by
  have hsorted : List.Sorted (fun a b : Nat => a ≤ b)
      (List.insertionSort (fun a b => a ≤ b) (d.map Prod.fst)) :=
    List.sorted_insertionSort _ _
  have hperm := List.perm_insertionSort (fun a b : Nat => a ≤ b) (d.map Prod.fst)
  have hnd2 : (List.insertionSort (fun a b => a ≤ b) (d.map Prod.fst)).Nodup :=
    hperm.nodup_iff.mpr hnd
  have := List.Pairwise.and hsorted hnd2
  exact this.imp (fun h => lt_of_le_of_ne h.1 h.2)

/-! ### Claim C4: sparse-to-dense output reconstruction -/

/-- Claim C4: on successful execution, `dicttolist` converts an output
argument's sparse index-to-value mapping (non-negative integer keys) to a
dense sequence by scanning keys in ascending order, placing each written
value at its index and filling every unwritten index below the maximum key
with the type's canonical placeholder (123 for integer types, `True` for
bool, 123.0 for float/double); the dense result has length
maximum-key + 1. -/
theorem c4_dicttolist_dense (d : List (Nat × PyVal)) (tn : String) (tv : PyVal)
    (hnd : (d.map Prod.fst).Nodup) (hne : d ≠ []) (htv : gettypeval tn = .ok tv) :
    ∃ l, dicttolist d tn = .ok l ∧
      l.length = maxKeyL (d.map Prod.fst) + 1 ∧
      (∀ k v, (k, v) ∈ d → l[k]? = some v) ∧
      (∀ i, i < l.length → i ∉ d.map Prod.fst → l[i]? = some tv) ∧
      (hasSub "int" tn = true → tv = PyVal.int 123) ∧
      (hasSub "int" tn = false → hasSub "bool" tn = true → tv = PyVal.bool true) ∧
      (hasSub "int" tn = false → hasSub "bool" tn = false → tv = PyVal.float 123) := by
  have hdl : dicttolist d tn =
      .ok (linearize tv d 0 (List.insertionSort (fun a b => a ≤ b) (d.map Prod.fst))) := by
    simp [dicttolist, htv]
  set ks := List.insertionSort (fun a b : Nat => a ≤ b) (d.map Prod.fst) with hks
  have hperm : ks.Perm (d.map Prod.fst) := List.perm_insertionSort _ _
  have hp : List.Pairwise (· < ·) ks := sortedKeys_pairwise hnd
  have hksne : ks ≠ [] := by
    intro hempty
    have : d.map Prod.fst = [] := (hempty ▸ hperm).symm.eq_nil
    exact hne (List.map_eq_nil_iff.mp this)
  have hmax : maxKeyL ks = maxKeyL (d.map Prod.fst) := maxKeyL_perm hperm
  have hge : ∀ k ∈ ks, 0 ≤ k := fun k _ => Nat.zero_le k
  have hlen : (linearize tv d 0 ks).length = maxKeyL (d.map Prod.fst) + 1 := by
    rw [linearize_length tv d ks 0 hp hge hksne, hmax]
    omega
  refine ⟨linearize tv d 0 ks, hdl, hlen, ?_, ?_, ?_, ?_, ?_⟩
  · intro k v hmem
    have hkks : k ∈ ks := hperm.mem_iff.mpr (List.mem_map.mpr ⟨(k, v), hmem, rfl⟩)
    have hklt : 0 + k < maxKeyL ks + 1 := by
      have := le_maxKeyL hkks
      omega
    have := linearize_getElem? tv d ks 0 k hp hge hksne hklt
    simp only [Nat.zero_add] at this
    rw [this, if_pos hkks, dictGetD_of_mem hmem hnd]
  · intro i hi hnm
    have hiks : i ∉ ks := fun hc => hnm (hperm.mem_iff.mp hc)
    have hilt : 0 + i < maxKeyL ks + 1 := by
      rw [hlen] at hi
      omega
    have := linearize_getElem? tv d ks 0 i hp hge hksne hilt
    simp only [Nat.zero_add] at this
    rw [this, if_neg hiks]
  · intro hint
    rw [gettypeval, hint] at htv
    have h2 : PyVal.int 123 = tv := by simpa using htv
    exact h2.symm
  · intro hint hbool
    rw [gettypeval, hint, hbool] at htv
    have h2 : PyVal.bool true = tv := by simpa using htv
    exact h2.symm
  · intro hint hbool
    rw [gettypeval, hint, hbool] at htv
    rcases hdf : hasSub "double" tn || hasSub "float" tn with _ | _ <;>
      simp [hdf] at htv
    simp [htv.symm]

/-- Witness for C4: the sparse map `{0: 9, 2: 5}` of an `int64` output. -/
theorem c4_witness :
    ∃ l, dicttolist [(2, PyVal.int 5), (0, PyVal.int 9)] "int64" = .ok l ∧
      l.length = maxKeyL ([(2, PyVal.int 5), (0, PyVal.int 9)].map Prod.fst) + 1 ∧
      (∀ k v, (k, v) ∈ [(2, PyVal.int 5), (0, PyVal.int 9)] → l[k]? = some v) ∧
      (∀ i, i < l.length →
        i ∉ [(2, PyVal.int 5), (0, PyVal.int 9)].map Prod.fst → l[i]? = some (PyVal.int 123)) ∧
      (hasSub "int" "int64" = true → PyVal.int 123 = PyVal.int 123) ∧
      (hasSub "int" "int64" = false → hasSub "bool" "int64" = true →
        PyVal.int 123 = PyVal.bool true) ∧
      (hasSub "int" "int64" = false → hasSub "bool" "int64" = false →
        PyVal.int 123 = PyVal.float 123) :=
  c4_dicttolist_dense [(2, PyVal.int 5), (0, PyVal.int 9)] "int64" (PyVal.int 123)
    (by decide) (List.cons_ne_nil _ _) (by rfl)

/-! ### Claim C7: idempotence of the reconstruction -/

/-- The reconstruction applied to an already-dense list (the mapping sending
index `i` to the value at `i`) returns that list unchanged. -/
theorem dicttolist_enum (tn : String) (tv : PyVal) (htv : gettypeval tn = .ok tv)
    (l : List PyVal) : dicttolist (List.enum l) tn = .ok l := by
  have hkeys : (List.enum l).map Prod.fst = List.range l.length := List.enum_map_fst l
  have hsorted : List.Sorted (fun a b : Nat => a ≤ b) (List.range l.length) :=
    (List.sorted_lt_range l.length).imp le_of_lt
  have hdl : dicttolist (List.enum l) tn = .ok (linearize tv (List.enum l) 0
      (List.insertionSort (fun a b => a ≤ b) ((List.enum l).map Prod.fst))) := by
    simp [dicttolist, htv]
  rw [hdl, hkeys, List.Sorted.insertionSort_eq hsorted]
  cases hl : l with
  | nil => simp [linearize]
  | cons x xs =>
      rw [← hl]
      refine congrArg Except.ok ?_
      have hlpos : 0 < l.length := by rw [hl]; simp
      have hp : List.Pairwise (· < ·) (List.range l.length) :=
        List.sorted_lt_range l.length
      have hge : ∀ k ∈ List.range l.length, 0 ≤ k := fun k _ => Nat.zero_le k
      have hrne : List.range l.length ≠ [] := by
        intro hc
        rw [List.range_eq_nil] at hc
        omega
      have hmax : maxKeyL (List.range l.length) = l.length - 1 := by
        have h1 : maxKeyL (List.range l.length) ∈ List.range l.length :=
          maxKeyL_mem hrne
        have h2 : l.length - 1 ∈ List.range l.length := by
          rw [List.mem_range]; omega
        have h3 := le_maxKeyL h2
        rw [List.mem_range] at h1
        omega
      have hlen : (linearize tv (List.enum l) 0 (List.range l.length)).length = l.length := by
        rw [linearize_length tv (List.enum l) _ 0 hp hge hrne, hmax]
        omega
      apply List.ext_getElem?
      intro i
      by_cases hi : i < l.length
      · have hilt : 0 + i < maxKeyL (List.range l.length) + 1 := by
          rw [hmax]; omega
        have hget := linearize_getElem? tv (List.enum l) (List.range l.length) 0 i
          hp hge hrne hilt
        simp only [Nat.zero_add] at hget
        rw [hget, if_pos (List.mem_range.mpr hi)]
        have hmem : (i, l[i]) ∈ List.enum l :=
          List.mk_mem_enum_iff_getElem?.mpr (List.getElem?_eq_getElem hi)
        have hnd : ((List.enum l).map Prod.fst).Nodup := by
          rw [hkeys]; exact List.nodup_range _
        rw [dictGetD_of_mem hmem hnd]
        exact (List.getElem?_eq_getElem hi).symm
      · have h1 : (linearize tv (List.enum l) 0 (List.range l.length))[i]? = none := by
          rw [List.getElem?_eq_none]
          omega
        have h2 : l[i]? = none := by
          rw [List.getElem?_eq_none]
          omega
        rw [h1, h2]

/-- Claim C7: the sparse-to-dense reconstruction is idempotent — re-running
`dicttolist` on a dense result it produced (viewed as the mapping from each
index to the value stored there) yields the same dense result. -/
theorem c7_dicttolist_idempotent (d : List (Nat × PyVal)) (tn : String)
    (l : List PyVal) (h : dicttolist d tn = .ok l) :
    dicttolist (List.enum l) tn = .ok l := by
  have htv : ∃ tv, gettypeval tn = .ok tv := by
    cases hg : gettypeval tn with
    | ok tv => exact ⟨tv, rfl⟩
    | error e =>
        rw [dicttolist, hg] at h
        simp [Except.bind] at h
  obtain ⟨tv, htv⟩ := htv
  exact dicttolist_enum tn tv htv l

/-- Witness for C7: re-densifying `[9, 123, 5]` (the dense form of
`{0: 9, 2: 5}`) leaves it unchanged. -/
theorem c7_witness :
    dicttolist (List.enum [PyVal.int 9, PyVal.int 123, PyVal.int 5]) "int64" =
      .ok [PyVal.int 9, PyVal.int 123, PyVal.int 5] :=
  c7_dicttolist_idempotent [(2, PyVal.int 5), (0, PyVal.int 9)] "int64"
    [PyVal.int 9, PyVal.int 123, PyVal.int 5] (by rfl)

/-! ### Claim C10: the hard-excluded kernels -/

/-- Claim C10: a kernel whose templatized name is one of
`awkward_NumpyArray_sort_asstrings_uint8`, `awkward_argsort`, `awkward_sort`
gets an empty `tests` list from `Specification.__init__`, even when it is
not blacklisted and regardless of the fixture corpus and arguments. -/
theorem c10_no_role_kernels_empty (tkn name : String) (args : List Argument)
    (impl : KernelImpl) (td : TestData) (h : tkn ∈ noRoleKernels) :
    (mkSpecification tkn name args impl td false).tests = .ok [] := by
  simp [mkSpecification, h]

/-- Witness for C10: `awkward_sort` with a nonempty fixture corpus. -/
theorem c10_witness :
    (mkSpecification "awkward_sort" "awkward_sort_int64"
      [⟨"x", "int64", "in", "default"⟩] (fun e => (e, none))
      ⟨PyVal.list [PyVal.int 1], []⟩ false).tests = .ok [] :=
  c10_no_role_kernels_empty "awkward_sort" "awkward_sort_int64"
    [⟨"x", "int64", "in", "default"⟩] (fun e => (e, none))
    ⟨PyVal.list [PyVal.int 1], []⟩ (by simp [noRoleKernels])

/-! ### Claim C1: raw combination count for all-default kernels -/

theorem odSetL_odSetL (e : List (String × List PyVal)) (k : String)
    (v1 v2 : List PyVal) : odSetL (odSetL e k v1) k v2 = odSetL e k v2 := by
  induction e with
  | nil => simp [odSetL]
  | cons p rest ih =>
      obtain ⟨k0, v0⟩ := p
      by_cases h : k0 == k
      · simp [odSetL, h]
      · simp [odSetL, h, ih]

/-- Invariant of the phase-1 loop over a prefix of default-role arguments:
`instancedict` consists of fresh singleton groups `str(0), …, str(count-1)`,
each holding one argument name whose `funcpassdict` entry is a one-element
sequence, and `pseudogroup` is still unbound. -/
def stInv (st : Ph1State) : Prop :=
  ∃ pairs : List (Nat × String),
    pairs.map Prod.fst = List.range st.count ∧
    st.instancedict = pairs.map (fun q => (GroupKey.default q.1, [q.2])) ∧
    (∀ q ∈ pairs, ∃ v, odGetL st.funcpassdict q.2 = some [v]) ∧
    st.pseudogroup = none

theorem stInv_init : stInv ⟨[], [], 0, none⟩ := by
  exact ⟨[], by simp, by simp, by simp, rfl⟩

theorem ph1Step_default (td : TestData) (st : Ph1State) (a : Argument)
    (ha : a.role = "default") (hinv : stInv st) :
    ∃ st2, ph1Step td st a = .ok st2 ∧ stInv st2 ∧ st2.count = st.count + 1 := by
  obtain ⟨pairs, hpk, hid, hfp, hpg⟩ := hinv
  have hrole : (a.role == "default") = true := by rw [ha]; rfl
  have hmem : idMem st.instancedict (GroupKey.default st.count) = false := by
    rw [hid]
    apply List.any_eq_false.mpr
    rintro ⟨g, l⟩ hq
    obtain ⟨⟨i, nm⟩, hqp, hqe⟩ := List.mem_map.mp hq
    obtain ⟨hg, hl⟩ := Prod.mk.injEq .. ▸ hqe
    have hi : i ∈ List.range st.count := hpk ▸ List.mem_map.mpr ⟨(i, nm), hqp, rfl⟩
    have hilt : i < st.count := List.mem_range.mp hi
    subst hg
    show ¬((i == st.count) = true)
    simpa using Nat.ne_of_lt hilt
  refine ⟨{ instancedict := st.instancedict ++ [(GroupKey.default st.count, [a.name])],
            funcpassdict := odSetL (odSetL st.funcpassdict a.name [])
              a.name [if a.direction == "out" then PyVal.dict [] else td.num],
            count := st.count + 1,
            pseudogroup := st.pseudogroup }, ?_, ?_, rfl⟩
  · rw [ph1Step]
    simp only [hrole, if_true, hmem, Bool.false_eq_true, if_false]
  · refine ⟨pairs ++ [(st.count, a.name)], ?_, ?_, ?_, hpg⟩
    · simp [hpk, List.range_succ]
    · simp [hid]
    · intro q hq
      rcases List.mem_append.mp hq with h | h
      · obtain ⟨v, hv⟩ := hfp q h
        by_cases hnm : q.2 = a.name
        · refine ⟨if a.direction == "out" then PyVal.dict [] else td.num, ?_⟩
          simp only [hnm, odSetL_odSetL, odGetL_odSetL_self]
        · refine ⟨v, ?_⟩
          simp only [odSetL_odSetL, odGetL_odSetL_ne _ _ _ _ hnm, hv]
      · have hq2 : q = (st.count, a.name) := List.mem_singleton.mp h
        subst hq2
        refine ⟨if a.direction == "out" then PyVal.dict [] else td.num, ?_⟩
        simp only [odSetL_odSetL, odGetL_odSetL_self]

theorem phase1_default_fold (td : TestData) :
    ∀ (args : List Argument) (st : Ph1State), (∀ a ∈ args, a.role = "default") →
      stInv st → ∃ st2, args.foldlM (ph1Step td) st = .ok st2 ∧ stInv st2 := by
  intro args
  induction args with
  | nil => intro st _ hinv; exact ⟨st, rfl, hinv⟩
  | cons a rest ih =>
      intro st hall hinv
      obtain ⟨st1, hstep, hinv1, _⟩ :=
        ph1Step_default td st a (hall a (List.mem_cons_self _ _)) hinv
      obtain ⟨st2, hfold, hinv2⟩ :=
        ih st1 (fun b hb => hall b (List.mem_cons_of_mem _ hb)) hinv1
      refine ⟨st2, ?_, hinv2⟩
      rw [List.foldlM_cons, hstep]
      exact hfold

theorem find?_default_pairs (pairs : List (Nat × String)) (i : Nat) (nm : String)
    (hnd : (pairs.map Prod.fst).Nodup) (hmem : (i, nm) ∈ pairs) :
    List.find? (fun q => GroupKey.beq q.1 (GroupKey.default i))
      (pairs.map (fun q => (GroupKey.default q.1, [q.2]))) =
      some (GroupKey.default i, [nm]) := by
  induction pairs with
  | nil => cases hmem
  | cons p rest ih =>
      obtain ⟨j, s⟩ := p
      simp only [List.map_cons, List.nodup_cons] at hnd
      by_cases hji : j = i
      · subst hji
        have hs : s = nm := by
          rcases List.mem_cons.mp hmem with h | h
          · exact ((Prod.mk.injEq .. ▸ h).2).symm
          · exact absurd (List.mem_map.mpr ⟨(j, nm), h, rfl⟩) hnd.1
        subst hs
        simp [List.find?, GroupKey.beq]
      · have hbeq : GroupKey.beq (GroupKey.default j) (GroupKey.default i) = false := by
          simp only [GroupKey.beq, beq_eq_false_iff_ne, ne_eq]
          exact hji
        have hmem2 : (i, nm) ∈ rest := by
          rcases List.mem_cons.mp hmem with h | h
          · exact absurd ((Prod.mk.injEq .. ▸ h).1).symm hji
          · exact h
        simp only [List.map_cons, List.find?, hbeq]
        exact ih hnd.2 hmem2

theorem zipN_singleton (v : PyVal) : zipN [[v]] = [[v]] := rfl

theorem pyProduct_singletons :
    ∀ cs : List (List (List PyVal)), (∀ c ∈ cs, ∃ t, c = [t]) →
      ∃ sel, pyProduct cs = [sel] := by
  intro cs
  induction cs with
  | nil => intro _; exact ⟨[], rfl⟩
  | cons c rest ih =>
      intro hall
      obtain ⟨t, ht⟩ := hall c (List.mem_cons_self _ _)
      obtain ⟨sel, hsel⟩ := ih (fun c2 h2 => hall c2 (List.mem_cons_of_mem _ h2))
      subst ht
      refine ⟨t :: sel, ?_⟩
      simp [pyProduct, hsel]

/-- Claim C1 (amended): for a kernel all of whose arguments carry the default
role, the combination generator produces exactly one raw combination before
validation filtering, regardless of the length of the generic `num` fixture
sequence (each default-role argument contributes a singleton sequence, so the
cartesian product has exactly one element). -/
theorem c1_amended_single_combination (args : List Argument) (td : TestData)
    (h : ∀ a ∈ args, a.role = "default") :
    ∃ env, rawCombinations args td = .ok [env] := by
  obtain ⟨st, hfold, hinv⟩ := phase1_default_fold td args ⟨[], [], 0, none⟩ h stInv_init
  obtain ⟨pairs, hpk, hid, hfp, _⟩ := hinv
  have hnd : (pairs.map Prod.fst).Nodup := hpk ▸ List.nodup_range _
  have hsing : ∀ c ∈ combosOf st, ∃ t, c = [t] := by
    intro c hc
    rw [combosOf, hid, List.map_map, List.map_map] at hc
    obtain ⟨⟨i, nm⟩, hip, hie⟩ := List.mem_map.mp hc
    obtain ⟨v, hv⟩ := hfp (i, nm) hip
    have hfind := find?_default_pairs pairs i nm hnd hip
    refine ⟨[v], ?_⟩
    rw [← hie]
    show zipN ((idGetArgs (pairs.map (fun q => (GroupKey.default q.1, [q.2])))
        (GroupKey.default i)).map
        (fun nm2 => (odGetL st.funcpassdict nm2).getD [])) = [[v]]
    rw [idGetArgs, hfind]
    simp [hv, zipN_singleton]
  obtain ⟨sel, hsel⟩ := pyProduct_singletons (combosOf st) hsing
  refine ⟨buildEnv st sel, ?_⟩
  rw [rawCombinations, phase1, hfold]
  show Except.ok ((pyProduct (combosOf st)).map (buildEnv st)) = _
  rw [hsel]
  rfl

/-- Counterexample for C1 as stated: a kernel with one default-role argument
and the `num` fixture `[1, 2, 3]` of length 3 produces exactly one raw
combination, not three — the whole `num` sequence is bound in a single
combination. -/
theorem c1_counterexample :
    pyLen (PyVal.list [PyVal.int 1, PyVal.int 2, PyVal.int 3]) = .ok 3 ∧
    (rawCombinations [⟨"x", "int64", "in", "default"⟩]
      ⟨PyVal.list [PyVal.int 1, PyVal.int 2, PyVal.int 3], []⟩).map List.length =
        .ok 1 ∧
    (1 : Nat) ≠ 3 := by
  refine ⟨rfl, rfl, by decide⟩

/-- Witness for the amended C1 at a concrete kernel. -/
theorem c1_witness :
    ∃ env, rawCombinations [⟨"x", "int64", "in", "default"⟩]
      ⟨PyVal.list [PyVal.int 1, PyVal.int 2, PyVal.int 3], []⟩ = .ok [env] :=
  c1_amended_single_combination [⟨"x", "int64", "in", "default"⟩]
    ⟨PyVal.list [PyVal.int 1, PyVal.int 2, PyVal.int 3], []⟩
    (by
      intro a ha
      rw [List.mem_singleton] at ha
      subst ha
      rfl)

/-! ### Shared machinery for the `gettests` fold -/

/-- Binding a successful `Except` computation just applies the continuation. -/
theorem exceptOkBind {ε α β : Type} (a : α) (f : α → Except ε β) :
    (Except.ok a >>= f) = f a := rfl

/-- Binding an errored `Except` computation propagates the error. -/
theorem exceptErrorBind {ε α β : Type} (e : ε) (f : α → Except ε β) :
    ((Except.error e : Except ε α) >>= f) = Except.error e := rfl

/-- Everything retained by the `gettests` loop entered the accumulator after
passing `processCombination` and both validators. -/
theorem gettests_fold_mem (args : List Argument) (impl : KernelImpl) :
    ∀ (envs : List Env) (acc out : List TestCase),
      envs.foldlM
        (fun acc env => do
          let t ← processCombination args impl env
          let keep ← keepTest args t
          return (if keep then acc ++ [t] else acc)) acc = .ok out →
      ∀ t ∈ out, t ∈ acc ∨
        ∃ env ∈ envs, processCombination args impl env = .ok t ∧
          keepTest args t = .ok true := by
  intro envs
  induction envs with
  | nil =>
      intro acc out hfold t ht
      simp only [List.foldlM_nil] at hfold
      cases hfold
      exact Or.inl ht
  | cons env rest ih =>
      intro acc out hfold t ht
      rw [List.foldlM_cons] at hfold
      cases hproc : processCombination args impl env with
      | error e => rw [hproc] at hfold; cases hfold
      | ok t1 =>
          rw [hproc] at hfold
          simp only [exceptOkBind] at hfold
          cases hkeep : keepTest args t1 with
          | error e =>
              rw [hkeep] at hfold
              simp only [exceptErrorBind] at hfold
              cases hfold
          | ok keep =>
              rw [hkeep] at hfold
              simp only [exceptOkBind] at hfold
              have := ih (if keep then acc ++ [t1] else acc) out hfold t ht
              rcases this with hacc | ⟨env2, henv2, hp2, hk2⟩
              · by_cases hk : keep
                · subst hk
                  simp only [if_true] at hacc
                  rcases List.mem_append.mp hacc with h | h
                  · exact Or.inl h
                  · have : t = t1 := List.mem_singleton.mp h
                    subst this
                    exact Or.inr ⟨env, List.mem_cons_self _ _, hproc, hkeep⟩
                · have hkf : keep = false := by
                    cases keep
                    · rfl
                    · exact absurd rfl hk
                  subst hkf
                  simp only [Bool.false_eq_true, if_false] at hacc
                  exact Or.inl hacc
              · exact Or.inr ⟨env2, List.mem_cons_of_mem _ henv2, hp2, hk2⟩

/-- A retained test passed `typevalidates` and `validateoverflow`. -/
theorem gettests_retained_validated (args : List Argument) (impl : KernelImpl)
    (td : TestData) (l : List TestCase) (t : TestCase)
    (hrun : gettests args impl td = .ok l) (ht : t ∈ l) :
    typevalidates t.inargs args = .ok true ∧ validateoverflow args t = .ok true := by
  rw [gettests] at hrun
  cases hraw : rawCombinations args td with
  | error e => rw [hraw] at hrun; cases hrun
  | ok envs =>
      rw [hraw] at hrun
      simp only [exceptOkBind] at hrun
      have := gettests_fold_mem args impl envs [] l hrun t ht
      rcases this with hfalse | ⟨env, _, _, hkeep⟩
      · cases hfalse
      · rw [keepTest] at hkeep
        cases htv : typevalidates t.inargs args with
        | error e => rw [htv] at hkeep; cases hkeep
        | ok tv =>
            rw [htv] at hkeep
            simp only [exceptOkBind] at hkeep
            cases tv
            · simp only [Bool.false_eq_true, if_false] at hkeep
              cases hkeep
            · simp only [if_true] at hkeep
              exact ⟨rfl, hkeep⟩

/-! ### Claim C2: the invariant actually enforced on retained TestCases -/

/-- The scalar values of an argument value under the generator's nesting
convention (`List[List[...]]` is a sequence of rows, `List[...]` a flat
sequence, anything else a scalar). -/
def scalarsOf (tn : String) (v : PyVal) : List PyVal :=
  if hasSub "List[List" tn then
    match v with
    | .list rows => (rows.map (fun r => match r with | .list items => items | _ => [r])).flatten
    | _ => [v]
  else if hasSub "List" tn then
    match v with
    | .list items => items
    | _ => [v]
  else [v]

/-- Modelled from the spec: the "global bit-width bound" of §3/§4.3 — every
scalar of an integer/unsigned-typed value must lie within `[min, max]` of the
type's declared bit width.  This is the property the spec claims every
retained TestCase value satisfies. -/
def specBitWidthBoundHolds (tn : String) (v : PyVal) : Bool :=
  let t := remove_const tn
  if hasSub "int" t || hasSub "uint" t then
    match npIinfo (gettypename t) with
    | .ok b =>
        (scalarsOf t v).all (fun s =>
          match pyNumVal s with
          | some q => decide ((b.1 : Rat) ≤ q ∧ q ≤ (b.2 : Rat))
          | none => false)
    | .error _ => false
  else true

/-- Counterexample for C2 as stated: a kernel argument declared
`List[int8_t]` bound to `[300]` — the value 300 violates the int8 bit-width
bound `[-128, 127]`, yet the TestCase is retained (the generated path never
checks bit widths). -/
theorem c2_counterexample :
    gettests [⟨"x", "List[int8_t]", "in", "default"⟩] (fun env => (env, none))
      ⟨PyVal.list [PyVal.int 300], []⟩ =
      .ok [⟨[("x", PyVal.list [PyVal.int 300])], some [], true⟩] ∧
    specBitWidthBoundHolds "List[int8_t]" (PyVal.list [PyVal.int 300]) = false := by
  exact ⟨rfl, rfl⟩

/-- Claim C2 (amended): every TestCase retained into the tests list passed
exactly the two filters the code applies — `typevalidates` on its `inargs`
(each list value nonempty with a first element matching the declared type's
placeholder class, each non-list value matching directly) and
`validateoverflow` (no negative top-level element in any `uint`-typed
argument's `inargs`, nor `outargs` entry when present).  No bit-width bound
is enforced on this path, `outargs` values are not type-checked, and the
unsigned scan does not recurse into nested sequences. -/
theorem c2_amended_retained_pass_validators (args : List Argument)
    (impl : KernelImpl) (td : TestData) (l : List TestCase) (t : TestCase)
    (hrun : gettests args impl td = .ok l) (ht : t ∈ l) :
    typevalidates t.inargs args = .ok true ∧ validateoverflow args t = .ok true :=
  gettests_retained_validated args impl td l t hrun ht

/-- Witness for the amended C2 at the counterexample's kernel. -/
theorem c2_witness :
    typevalidates ([("x", PyVal.list [PyVal.int 300])] : Env)
      [⟨"x", "List[int8_t]", "in", "default"⟩] = .ok true ∧
    validateoverflow [⟨"x", "List[int8_t]", "in", "default"⟩]
      ⟨[("x", PyVal.list [PyVal.int 300])], some [], true⟩ = .ok true :=
  c2_amended_retained_pass_validators [⟨"x", "List[int8_t]", "in", "default"⟩]
    (fun env => (env, none)) ⟨PyVal.list [PyVal.int 300], []⟩
    [⟨[("x", PyVal.list [PyVal.int 300])], some [], true⟩]
    ⟨[("x", PyVal.list [PyVal.int 300])], some [], true⟩
    rfl (List.mem_singleton.mpr rfl)

/-! ### Claim C5: unrecognized type descriptors are never swallowed -/

/-- If `typevalidates` returned `True`, it reached and recognized every
argument's type descriptor. -/
theorem typevalidates_true_gettypeval (testdict : Env) :
    ∀ args : List Argument, typevalidates testdict args = .ok true →
      ∀ a ∈ args, ∃ tv, gettypeval a.typename = .ok tv := by
  intro args
  induction args with
  | nil => intro _ a ha; cases ha
  | cons b rest ih =>
      intro h a ha
      rw [typevalidates] at h
      cases hget : odGet testdict b.name with
      | none => rw [hget] at h; cases h
      | some v =>
          rw [hget] at h
          have hnext : typevalidates testdict rest = .ok true ∧
              ∃ tv, gettypeval b.typename = .ok tv := by
            match v, h with
            | .list [], h => cases h
            | .list (x :: xs), h => {
                cases hg : gettypeval b.typename with
                | error e =>
                    rw [hg] at h
                    simp only [exceptErrorBind] at h
                    cases h
                | ok tv =>
                    rw [hg] at h
                    simp only [exceptOkBind] at h
                    by_cases hin : isinstanceTC x (classOf tv)
                    · rw [if_pos hin] at h
                      exact ⟨h, tv, rfl⟩
                    · rw [if_neg hin] at h
                      cases h }
            | .int n, h => {
                cases hg : gettypeval b.typename with
                | error e =>
                    rw [hg] at h
                    simp only [exceptErrorBind] at h
                    cases h
                | ok tv =>
                    rw [hg] at h
                    simp only [exceptOkBind] at h
                    by_cases hin : isinstanceTC (PyVal.int n) (classOf tv)
                    · rw [if_pos hin] at h
                      exact ⟨h, tv, rfl⟩
                    · rw [if_neg hin] at h
                      cases h }
            | .bool b2, h => {
                cases hg : gettypeval b.typename with
                | error e =>
                    rw [hg] at h
                    simp only [exceptErrorBind] at h
                    cases h
                | ok tv =>
                    rw [hg] at h
                    simp only [exceptOkBind] at h
                    by_cases hin : isinstanceTC (PyVal.bool b2) (classOf tv)
                    · rw [if_pos hin] at h
                      exact ⟨h, tv, rfl⟩
                    · rw [if_neg hin] at h
                      cases h }
            | .float q, h => {
                cases hg : gettypeval b.typename with
                | error e =>
                    rw [hg] at h
                    simp only [exceptErrorBind] at h
                    cases h
                | ok tv =>
                    rw [hg] at h
                    simp only [exceptOkBind] at h
                    by_cases hin : isinstanceTC (PyVal.float q) (classOf tv)
                    · rw [if_pos hin] at h
                      exact ⟨h, tv, rfl⟩
                    · rw [if_neg hin] at h
                      cases h }
            | .dict d, h => {
                cases hg : gettypeval b.typename with
                | error e =>
                    rw [hg] at h
                    simp only [exceptErrorBind] at h
                    cases h
                | ok tv =>
                    rw [hg] at h
                    simp only [exceptOkBind] at h
                    by_cases hin : isinstanceTC (PyVal.dict d) (classOf tv)
                    · rw [if_pos hin] at h
                      exact ⟨h, tv, rfl⟩
                    · rw [if_neg hin] at h
                      cases h }
          rcases List.mem_cons.mp ha with hb | hb
          · subst hb; exact hnext.2
          · exact ih hnext.1 a hb

/-- Claim C5: an unrecognized type descriptor on any argument of a kernel is
never silently swallowed into generated tests — whenever `gettests` returns
normally for such a kernel, its test list is empty (every combination either
aborted generation with a propagated error, or was dropped by a validator
before the descriptor was consulted; a retained test would require
`typevalidates` to reach and recognize every descriptor). -/
theorem c5_unrecognized_type_fatal (args : List Argument) (impl : KernelImpl)
    (td : TestData) (a : Argument) (e : PyErr) (l : List TestCase)
    (ha : a ∈ args) (herr : gettypeval a.typename = .error e)
    (hrun : gettests args impl td = .ok l) : l = [] := by
  by_contra hne
  obtain ⟨t, ht⟩ := List.exists_mem_of_ne_nil l hne
  obtain ⟨htv, -⟩ := gettests_retained_validated args impl td l t hrun ht
  obtain ⟨tv, htv2⟩ := typevalidates_true_gettypeval t.inargs args htv a ha
  rw [herr] at htv2
  cases htv2

/-- Witness for C5: a kernel with an unrecognized descriptor whose only
combination is dropped early (empty `num`), so `gettests` returns an empty
list rather than swallowing the configuration error into tests. -/
theorem c5_witness :
    ([] : List TestCase) = [] :=
  c5_unrecognized_type_fatal
    [⟨"e", "int64", "in", "default"⟩, ⟨"x", "badtype", "in", "default"⟩]
    (fun env => (env, none)) ⟨PyVal.list [], []⟩
    ⟨"x", "badtype", "in", "default"⟩ PyErr.valueError []
    (List.mem_cons_of_mem _ (List.mem_singleton.mpr rfl)) rfl rfl

/-! ### Claim C9: determinism and ordering of the generated list -/

/-- Mapping a function over a successful `Except` value. -/
theorem exceptMapOkApp {ε α β : Type} (f : α → β) (a : α) :
    (f <$> (Except.ok a : Except ε α)) = Except.ok (f a) := rfl

/-- Mapping a function over an errored `Except` value. -/
theorem exceptMapErrorApp {ε α β : Type} (f : α → β) (e : ε) :
    (f <$> (Except.error e : Except ε α)) = Except.error e := rfl

theorem except_map_bind_cons (M : Except PyErr (List (Option TestCase)))
    (acc : List TestCase) (t : TestCase) (keep : Bool) :
    Except.map (fun picks : List (Option TestCase) =>
        (if keep then acc ++ [t] else acc) ++ picks.filterMap id) M =
    Except.map (fun picks : List (Option TestCase) => acc ++ picks.filterMap id)
      (M >>= fun xs => pure ((if keep then some t else none) :: xs)) := by
  cases M with
  | error e => rfl
  | ok picks =>
      cases keep with
      | false => simp [Except.map, List.filterMap_cons]
      | true => simp [Except.map, List.filterMap_cons]

/-- The accumulating `gettests` loop equals the order-explicit
map-then-filter formulation, for every accumulator prefix. -/
theorem gettests_fold_eq_inorder (args : List Argument) (impl : KernelImpl) :
    ∀ (envs : List Env) (acc : List TestCase),
      envs.foldlM
        (fun acc env => do
          let t ← processCombination args impl env
          let keep ← keepTest args t
          return (if keep then acc ++ [t] else acc)) acc =
      (envs.mapM
        (fun env => do
          let t ← processCombination args impl env
          let keep ← keepTest args t
          return (if keep then some t else none))).map
        (fun picks : List (Option TestCase) => acc ++ picks.filterMap id) := by
  intro envs
  induction envs with
  | nil =>
      intro acc
      rw [List.mapM_nil]
      show Except.ok acc = Except.ok (acc ++ List.filterMap id [])
      simp
  | cons env rest ih =>
      intro acc
      rw [List.foldlM_cons, List.mapM_cons]
      cases hproc : processCombination args impl env with
      | error e =>
          simp only [exceptErrorBind]
          rfl
      | ok t =>
          simp only [exceptOkBind]
          cases hkeep : keepTest args t with
          | error e =>
              simp only [exceptMapErrorApp, exceptErrorBind]
              rfl
          | ok keep =>
              simp only [exceptMapOkApp, exceptOkBind, pure_bind]
              rw [ih]
              exact except_map_bind_cons _ acc t keep

/-- Claim C9: test generation is deterministic — the same specification and
fixture corpus always yield the same ordered TestCase list — and the list is
exactly the in-order filtering of the combination sequence (role groups in
declaration order, cartesian product with the rightmost group varying
fastest), as made explicit by `testsInOrder`. -/
theorem c9_deterministic_ordered (args : List Argument) (impl : KernelImpl)
    (td : TestData) :
    gettests args impl td = gettests args impl td ∧
    gettests args impl td = testsInOrder args impl td := by
  refine ⟨rfl, ?_⟩
  rw [gettests, testsInOrder]
  cases hraw : rawCombinations args td with
  | error e => rfl
  | ok envs =>
      simp only [exceptOkBind]
      rw [gettests_fold_eq_inorder args impl envs []]
      cases envs.mapM
          (fun env => do
            let t ← processCombination args impl env
            let keep ← keepTest args t
            return (if keep then some t else none)) with
      | error e => rfl
      | ok picks => simp [Except.map]

/-! ### Claim C3: the domain-error (`except ValueError`) record -/

/-- Characterization of the `except ValueError` handler's `intests` build:
in arguments are copied from the post-call assignment, out arguments become
placeholder buffers of their accumulator's current length, and keys outside
the argument list are untouched. -/
theorem errorBranch_spec (env1 : Env) :
    ∀ (args : List Argument) (acc : Env),
      (args.map (fun a => a.name)).Nodup →
      (∀ a ∈ args, a.direction ≠ "out" → (odGet env1 a.name).isSome) →
      (∀ a ∈ args, a.direction = "out" → ∃ v n dummy, odGet env1 a.name = some v ∧
        pyLen v = .ok n ∧ getdummyvalue a.typename n = .ok dummy) →
      ∃ intests,
        args.foldlM
          (fun intests arg => do
            if arg.direction == "out" then
              match odGet env1 arg.name with
              | none => (Except.error PyErr.keyError : Except PyErr Env)
              | some v => do
                  let n ← pyLen v
                  let dummy ← getdummyvalue arg.typename n
                  return odSet intests arg.name (.list dummy)
            else
              match odGet env1 arg.name with
              | none => .error .keyError
              | some v => return odSet intests arg.name v) acc = .ok intests ∧
        (∀ a ∈ args, a.direction ≠ "out" → odGet intests a.name = odGet env1 a.name) ∧
        (∀ a ∈ args, a.direction = "out" → ∀ v n tv,
          odGet env1 a.name = some v → pyLen v = .ok n →
          gettypeval a.typename = .ok tv →
          odGet intests a.name = some (.list (List.replicate n tv))) ∧
        (∀ k, k ∉ args.map (fun a => a.name) → odGet intests k = odGet acc k) := by
  intro args
  induction args with
  | nil =>
      intro acc _ _ _
      exact ⟨acc, rfl, fun a ha => absurd ha (List.not_mem_nil a),
        fun a ha => absurd ha (List.not_mem_nil a), fun k _ => rfl⟩
  | cons a rest ih =>
      intro acc hnodup hin hout
      simp only [List.map_cons, List.nodup_cons] at hnodup
      by_cases hdir : a.direction = "out"
      · obtain ⟨v, n, dummy, hv, hn, hdum⟩ := hout a (List.mem_cons_self _ _) hdir
        have hstep : (if a.direction == "out" then
            match odGet env1 a.name with
            | none => (Except.error PyErr.keyError : Except PyErr Env)
            | some v => do
                let n ← pyLen v
                let dummy ← getdummyvalue a.typename n
                return odSet acc a.name (.list dummy)
            else
              match odGet env1 a.name with
              | none => (Except.error PyErr.keyError : Except PyErr Env)
              | some v => return odSet acc a.name v) =
            .ok (odSet acc a.name (.list dummy)) := by
          rw [if_pos (by simp [hdir]), hv]
          show (do
            let n ← pyLen v
            let dummy ← getdummyvalue a.typename n
            return odSet acc a.name (.list dummy)) =
              Except.ok (odSet acc a.name (.list dummy))
          rw [hn]
          simp only [exceptOkBind]
          rw [hdum]
          simp only [exceptOkBind]
          rfl
        obtain ⟨intests, hfold, hinc, houtc, hframe⟩ :=
          ih (odSet acc a.name (.list dummy)) hnodup.2
            (fun b hb => hin b (List.mem_cons_of_mem _ hb))
            (fun b hb => hout b (List.mem_cons_of_mem _ hb))
        refine ⟨intests, ?_, ?_, ?_, ?_⟩
        · rw [List.foldlM_cons, hstep]
          simpa using hfold
        · intro b hb hbdir
          rcases List.mem_cons.mp hb with h | h
          · subst b; exact absurd hdir hbdir
          · exact hinc b h hbdir
        · intro b hb hbdir v2 n2 tv hv2 hn2 htv
          rcases List.mem_cons.mp hb with h | h
          · subst b
            have hvv : v2 = v := by rw [hv] at hv2; exact (Option.some.injEq .. ▸ hv2).symm
            subst hvv
            have hnn : n2 = n := by rw [hn] at hn2; cases hn2; rfl
            subst hnn
            have hdd : dummy = List.replicate n2 tv := by
              rw [getdummyvalue, htv] at hdum
              simp only [exceptOkBind] at hdum
              cases hdum
              rfl
            rw [hframe a.name hnodup.1, odGet_odSet_self, hdd]
          · exact houtc b h hbdir v2 n2 tv hv2 hn2 htv
        · intro k hk
          have hk1 : k ≠ a.name := fun hc => hk (by simp [hc])
          have hk2 : k ∉ rest.map (fun a => a.name) := fun hc => hk (by simp [hc])
          rw [hframe k hk2, odGet_odSet_ne _ _ _ _ hk1]
      · have hsome : (odGet env1 a.name).isSome :=
          hin a (List.mem_cons_self _ _) hdir
        obtain ⟨v, hv⟩ := Option.isSome_iff_exists.mp hsome
        have hstep : (if a.direction == "out" then
            match odGet env1 a.name with
            | none => (Except.error PyErr.keyError : Except PyErr Env)
            | some v => do
                let n ← pyLen v
                let dummy ← getdummyvalue a.typename n
                return odSet acc a.name (.list dummy)
            else
              match odGet env1 a.name with
              | none => (Except.error PyErr.keyError : Except PyErr Env)
              | some v => return odSet acc a.name v) =
            .ok (odSet acc a.name v) := by
          rw [if_neg (by simp [hdir]), hv]
          rfl
        obtain ⟨intests, hfold, hinc, houtc, hframe⟩ :=
          ih (odSet acc a.name v) hnodup.2
            (fun b hb => hin b (List.mem_cons_of_mem _ hb))
            (fun b hb => hout b (List.mem_cons_of_mem _ hb))
        refine ⟨intests, ?_, ?_, ?_, ?_⟩
        · rw [List.foldlM_cons, hstep]
          simpa using hfold
        · intro b hb hbdir
          rcases List.mem_cons.mp hb with h | h
          · subst b
            rw [hframe a.name hnodup.1, odGet_odSet_self, hv]
          · exact hinc b h hbdir
        · intro b hb hbdir v2 n2 tv hv2 hn2 htv
          rcases List.mem_cons.mp hb with h | h
          · subst b; exact absurd hbdir hdir
          · exact houtc b h hbdir v2 n2 tv hv2 hn2 htv
        · intro k hk
          have hk1 : k ≠ a.name := fun hc => hk (by simp [hc])
          have hk2 : k ∉ rest.map (fun a => a.name) := fun hc => hk (by simp [hc])
          rw [hframe k hk2, odGet_odSet_ne _ _ _ _ hk1]

/-- Claim C3: on a recognized domain-error signal (`ValueError`) from the
reference callable, the resulting TestCase has `success = false` and no
`outargs` mapping; each input argument is recorded as it stands in the
assignment after the call, and each output argument is recorded in `inargs`
as a sequence consisting solely of the type's canonical placeholder value
whose length equals the current length of that argument's input
accumulator. -/
theorem c3_domain_error_record (args : List Argument) (impl : KernelImpl)
    (env env1 : Env)
    (himpl : impl env = (env1, some PyErr.valueError))
    (hnodup : (args.map (fun a => a.name)).Nodup)
    (hin : ∀ a ∈ args, a.direction ≠ "out" → (odGet env1 a.name).isSome)
    (hout : ∀ a ∈ args, a.direction = "out" → ∃ v n dummy,
      odGet env1 a.name = some v ∧ pyLen v = .ok n ∧
      getdummyvalue a.typename n = .ok dummy) :
    ∃ t, processCombination args impl env = .ok t ∧
      t.success = false ∧ t.outargs = none ∧
      (∀ a ∈ args, a.direction ≠ "out" → odGet t.inargs a.name = odGet env1 a.name) ∧
      (∀ a ∈ args, a.direction = "out" → ∀ v n tv,
        odGet env1 a.name = some v → pyLen v = .ok n →
        gettypeval a.typename = .ok tv →
        odGet t.inargs a.name = some (.list (List.replicate n tv))) := by
  obtain ⟨intests, hfold, hinc, houtc, -⟩ :=
    errorBranch_spec env1 args [] hnodup hin hout
  have herrB : errorBranch args env1 = .ok intests := by
    rw [errorBranch]
    exact hfold
  refine ⟨⟨intests, none, false⟩, ?_, rfl, rfl, hinc, houtc⟩
  simp only [processCombination, himpl]
  rw [herrB]
  rfl

/-- Witness for C3: a kernel that writes `y[0] = 7` into its accumulator and
then raises `ValueError`; the recorded `y` buffer is `[123]` — one
placeholder per accumulator entry at error time. -/
theorem c3_witness :
    ∃ t, processCombination
        [⟨"x", "int64", "in", "default"⟩, ⟨"y", "int64", "out", "default"⟩]
        (fun env => (odSet env "y" (PyVal.dict [(0, PyVal.int 7)]),
          some PyErr.valueError))
        [("x", PyVal.list [PyVal.int 1]), ("y", PyVal.dict [])] = .ok t ∧
      t.success = false ∧ t.outargs = none ∧
      (∀ a ∈ [⟨"x", "int64", "in", "default"⟩,
          (⟨"y", "int64", "out", "default"⟩ : Argument)], a.direction ≠ "out" →
        odGet t.inargs a.name =
          odGet [("x", PyVal.list [PyVal.int 1]),
            ("y", PyVal.dict [(0, PyVal.int 7)])] a.name) ∧
      (∀ a ∈ [⟨"x", "int64", "in", "default"⟩,
          (⟨"y", "int64", "out", "default"⟩ : Argument)], a.direction = "out" →
        ∀ v n tv,
          odGet [("x", PyVal.list [PyVal.int 1]),
            ("y", PyVal.dict [(0, PyVal.int 7)])] a.name = some v →
          pyLen v = .ok n → gettypeval a.typename = .ok tv →
          odGet t.inargs a.name = some (.list (List.replicate n tv))) :=
  c3_domain_error_record
    [⟨"x", "int64", "in", "default"⟩, ⟨"y", "int64", "out", "default"⟩]
    (fun env => (odSet env "y" (PyVal.dict [(0, PyVal.int 7)]),
      some PyErr.valueError))
    [("x", PyVal.list [PyVal.int 1]), ("y", PyVal.dict [])]
    [("x", PyVal.list [PyVal.int 1]), ("y", PyVal.dict [(0, PyVal.int 7)])]
    rfl (by decide)
    (by
      intro a ha hdir
      rcases List.mem_cons.mp ha with h | h
      · subst h; rfl
      · have h2 : a = ⟨"y", "int64", "out", "default"⟩ := List.mem_singleton.mp h
        subst h2
        exact absurd rfl hdir)
    (by
      intro a ha hdir
      rcases List.mem_cons.mp ha with h | h
      · subst h; exact absurd hdir (by decide)
      · have h2 : a = ⟨"y", "int64", "out", "default"⟩ := List.mem_singleton.mp h
        subst h2
        exact ⟨PyVal.dict [(0, PyVal.int 7)], 1, [PyVal.int 123], rfl, rfl, rfl⟩)

/-! ### Claim C6: fixture-key fallback and the missing-key behavior -/

/-- Monadic `pure` on `Except` is `Except.ok`. -/
theorem exceptPureEq {ε α : Type} (a : α) : (pure a : Except ε α) = Except.ok a := rfl

theorem tdHasKey_of_tdRows (td : TestData) (k : String) (rows : List FixRow)
    (h : tdRows td k = some rows) : tdHasKey td k = true := by
  rw [tdRows] at h
  rw [tdHasKey]
  cases hf : td.groups.find? (fun p => p.1 == k) with
  | none => rw [hf] at h; cases h
  | some p => simp [hf]

/-- Counterexample for C6 as stated: kernel arguments with roles `foos-a`
and `bars-b`; the corpus has neither `bars` nor `bar`, yet generation
succeeds — the stale `pseudogroup` local still holds `foos`, and the
composed key `foos-b` happens to exist in the `foos` rows, so the `bars`
group is silently bound from the `foos` fixture data. -/
theorem c6_counterexample :
    tdHasKey ⟨PyVal.list [PyVal.int 0],
        [("foos", [[("foos-a", PyVal.int 1), ("foos-b", PyVal.int 2)]])]⟩
      "bars" = false ∧
    tdHasKey ⟨PyVal.list [PyVal.int 0],
        [("foos", [[("foos-a", PyVal.int 1), ("foos-b", PyVal.int 2)]])]⟩
      "bar" = false ∧
    gettests [⟨"u", "int64", "in", "foos-a"⟩, ⟨"v", "int64", "in", "bars-b"⟩]
      (fun env => (env, none))
      ⟨PyVal.list [PyVal.int 0],
        [("foos", [[("foos-a", PyVal.int 1), ("foos-b", PyVal.int 2)]])]⟩ =
      .ok [⟨[("u", PyVal.int 1), ("v", PyVal.int 2)], some [], true⟩] :=
  ⟨rfl, rfl, rfl⟩

/-- Claim C6 (amended): when a non-default role group's key is absent from
the corpus but its singular form (final character removed) is present, the
group's argument is bound from the singular key's fixture rows.  When
neither form is present, generation fails with an error (the unbound
`pseudogroup` local) provided no earlier argument carries a non-default
role; with earlier role groups, the lookup silently reuses the most recent
group's binding and only fails if the reused rows lack the composed key. -/
theorem c6_amended_fallback_and_error (pre : List Argument) (a : Argument)
    (td : TestData) (hpre : ∀ b ∈ pre, b.role = "default")
    (hrole : a.role ≠ "default") :
    (∀ rows vals, tdHasKey td (pyRoleGroup a.role) = false →
      tdRows td (strDropLast (pyRoleGroup a.role)) = some rows →
      rows.mapM (fun row =>
        match rowGet row
            (strDropLast (pyRoleGroup a.role) ++ pyRoleSuffixOf a.role) with
        | some v => Except.ok v
        | none => Except.error PyErr.keyError) = .ok vals →
      ∃ st, phase1 (pre ++ [a]) td = .ok st ∧
        odGetL st.funcpassdict a.name = some vals) ∧
    (∀ post : List Argument, tdHasKey td (pyRoleGroup a.role) = false →
      tdHasKey td (strDropLast (pyRoleGroup a.role)) = false →
      phase1 (pre ++ a :: post) td = .error PyErr.nameError) := by
  obtain ⟨st0, hfold0, hinv0⟩ :=
    phase1_default_fold td pre ⟨[], [], 0, none⟩ hpre stInv_init
  obtain ⟨pairs, -, -, -, hpg0⟩ := hinv0
  have hbeq : (a.role == "default") = false := by
    simpa using hrole
  constructor
  · intro rows vals hkey hrows hmapM
    have hkey2 : tdHasKey td (strDropLast (pyRoleGroup a.role)) = true :=
      tdHasKey_of_tdRows td _ rows hrows
    have hstep : ph1Step td st0 a = .ok
        { instancedict :=
            idAppendArg (if idMem st0.instancedict
                (GroupKey.named (pyRoleGroup a.role)) then st0.instancedict
              else st0.instancedict ++
                [(GroupKey.named (pyRoleGroup a.role), [])])
              (GroupKey.named (pyRoleGroup a.role)) a.name,
          funcpassdict :=
            odSetL (odSetL st0.funcpassdict a.name []) a.name vals,
          count := st0.count,
          pseudogroup := some (strDropLast (pyRoleGroup a.role)) } := by
      rw [ph1Step]
      simp only [hbeq, Bool.false_eq_true, if_false, hkey, hkey2,
        Bool.not_false, Bool.and_self, if_true, hrows]
      rw [hmapM]
      rfl
    refine ⟨?w, ?heq, ?hlook⟩
    case w =>
      exact
        { instancedict :=
            idAppendArg
              (if idMem st0.instancedict (GroupKey.named (pyRoleGroup a.role)) then
                st0.instancedict
              else st0.instancedict ++ [(GroupKey.named (pyRoleGroup a.role), [])])
              (GroupKey.named (pyRoleGroup a.role)) a.name,
          funcpassdict := odSetL (odSetL st0.funcpassdict a.name []) a.name vals,
          count := st0.count,
          pseudogroup := some (strDropLast (pyRoleGroup a.role)) }
    case heq =>
      rw [phase1, List.foldlM_append, hfold0]
      simp only [exceptOkBind]
      rw [List.foldlM_cons, hstep]
      simp only [List.foldlM_nil, exceptOkBind, exceptPureEq]
    case hlook =>
      show odGetL (odSetL (odSetL st0.funcpassdict a.name []) a.name vals)
        a.name = some vals
      rw [odSetL_odSetL, odGetL_odSetL_self]
  · intro post hkey hkey2
    rw [phase1, List.foldlM_append, hfold0]
    simp only [exceptOkBind]
    rw [List.foldlM_cons]
    have hstep : ph1Step td st0 a = .error PyErr.nameError := by
      rw [ph1Step]
      simp only [hbeq, Bool.false_eq_true, if_false, hkey, hkey2,
        Bool.not_false, Bool.and_false, hpg0]
    rw [hstep]
    rfl

/-- Witness for the amended C6: the singular fallback binds `foos-a` from the
`foo` table, and a first-position role group with no fixture entry at all
makes generation fail with the unbound-local error. -/
theorem c6_witness :
    (∃ st, phase1 ([] ++ [⟨"u", "int64", "in", "foos-a"⟩])
        ⟨PyVal.list [],
          [("foo", [[("foo-a", PyVal.int 11)], [("foo-a", PyVal.int 22)]])]⟩ =
        .ok st ∧
      odGetL st.funcpassdict "u" = some [PyVal.int 11, PyVal.int 22]) ∧
    phase1 ([] ++ ⟨"u", "int64", "in", "foos-a"⟩ :: [])
        ⟨PyVal.list [], []⟩ = .error PyErr.nameError := by
  constructor
  · exact (c6_amended_fallback_and_error [] ⟨"u", "int64", "in", "foos-a"⟩
      ⟨PyVal.list [],
        [("foo", [[("foo-a", PyVal.int 11)], [("foo-a", PyVal.int 22)]])]⟩
      (fun b hb => absurd hb (List.not_mem_nil b)) (by decide)).1
      [[("foo-a", PyVal.int 11)], [("foo-a", PyVal.int 22)]]
      [PyVal.int 11, PyVal.int 22] rfl rfl rfl
  · exact (c6_amended_fallback_and_error [] ⟨"u", "int64", "in", "foos-a"⟩
      ⟨PyVal.list [], []⟩
      (fun b hb => absurd hb (List.not_mem_nil b)) (by decide)).2 [] rfl rfl

/-! ### Claim C8: the unit-test-path range validator -/

/-- Whether a scalar lies in `[mn, mx]`, as a Boolean. -/
def inRangeB (mn mx : Int) (s : PyVal) : Bool :=
  match pyNumVal s with
  | some q => decide ((mn : Rat) ≤ q ∧ q ≤ (mx : Rat))
  | none => false

/-- Shape discipline required for `checkintrange` to scan one value without
a Python `TypeError`: list nesting matches the declared type descriptor and
every scalar is numeric. -/
def shapeB (tn : String) (v : PyVal) : Bool :=
  if hasSub "List[List" tn then
    match v with
    | .list rows =>
        rows.all (fun r =>
          match r with
          | .list items => items.all (fun s => (pyNumVal s).isSome)
          | _ => false)
    | _ => false
  else if hasSub "List" tn then
    match v with
    | .list items => items.all (fun s => (pyNumVal s).isSome)
    | _ => false
  else (pyNumVal v).isSome

/-- The in-range requirement for one value, given the dtype lookup result. -/
def rangeEntryVal (bi : Except PyErr (Int × Int)) (tn : String) (v : PyVal) : Bool :=
  match bi with
  | .error _ => false
  | .ok b => (scalarsOf tn v).all (inRangeB b.1 b.2)

/-- Modelled from the spec: one test-record argument passes the range
requirement iff (for integer/unsigned declared types) every scalar of its
value lies within `[min, max]` of the declared bit width; other arguments
pass vacuously, and a missing argument or unknown dtype fails. -/
def rangeEntryOKCore (fa : Except PyErr Argument) (v : PyVal) : Bool :=
  match fa with
  | .error _ => false
  | .ok a =>
    let tn := remove_const a.typename
    if hasSub "int" tn || hasSub "uint" tn then
      rangeEntryVal (npIinfo (gettypename tn)) tn v
    else true

/-- The per-record spec-side predicate: every argument's scalars in range. -/
def specRangeOK (args : List Argument) (ta : List (String × PyVal)) : Bool :=
  ta.all (fun p => rangeEntryOKCore (findArg args p.1) p.2)

/-- Well-formedness of one record entry for the range scan: the argument
resolves, the dtype (for integer types) is known, and the value's shape
matches its declared nesting. -/
def rangeWFCore (fa : Except PyErr Argument) (v : PyVal) : Bool :=
  match fa with
  | .error _ => false
  | .ok a =>
    let tn := remove_const a.typename
    if hasSub "int" tn || hasSub "uint" tn then
      (npIinfo (gettypename tn)).isOk && shapeB tn v
    else true

theorem flat_scan_ok (mn mx : Int) :
    ∀ (items : List PyVal) (fl : Bool),
      (∀ s ∈ items, (pyNumVal s).isSome) →
      items.foldlM
        (fun fl dat => do
          let ok ← pyInRange mn mx dat
          return (if ok then fl else false)) fl =
        .ok (fl && items.all (inRangeB mn mx)) := by
  intro items
  induction items with
  | nil => intro fl _; simp [exceptPureEq]
  | cons dat rest ih =>
      intro fl hnum
      obtain ⟨q, hq⟩ := Option.isSome_iff_exists.mp
        (hnum dat (List.mem_cons_self _ _))
      rw [List.foldlM_cons]
      have hin : pyInRange mn mx dat =
          .ok (decide ((mn : Rat) ≤ q ∧ q ≤ (mx : Rat))) := by
        rw [pyInRange, hq]
      rw [hin]
      simp only [exceptOkBind, pure_bind]
      rw [ih _ (fun s hs => hnum s (List.mem_cons_of_mem _ hs))]
      have hb : inRangeB mn mx dat = decide ((mn : Rat) ≤ q ∧ q ≤ (mx : Rat)) := by
        rw [inRangeB, hq]
      rw [List.all_cons, hb]
      cases hdec : decide ((mn : Rat) ≤ q ∧ q ≤ (mx : Rat)) with
      | false => simp
      | true => simp

theorem nested_scan_ok (mn mx : Int) :
    ∀ (rows : List PyVal) (flag : Bool),
      rows.all (fun r =>
        match r with
        | .list items => items.all (fun s => (pyNumVal s).isSome)
        | _ => false) = true →
      rows.foldlM
        (fun fl row => do
          let items ← pyIter row
          items.foldlM
            (fun fl2 dat => do
              let ok ← pyInRange mn mx dat
              return (if ok then fl2 else false)) fl) flag =
        .ok (flag &&
          ((rows.map (fun r =>
            match r with
            | .list items => items
            | _ => [r])).flatten).all (inRangeB mn mx)) := by
  intro rows
  induction rows with
  | nil => intro flag _; simp [exceptPureEq]
  | cons r rest ih =>
      intro flag hwf
      simp only [List.all_cons, Bool.and_eq_true] at hwf
      match r, hwf with
      | .list items, hwf =>
          rw [List.foldlM_cons]
          show (do
            let its ← pyIter (PyVal.list items)
            let fl2 ← its.foldlM
              (fun fl2 dat => do
                let ok ← pyInRange mn mx dat
                return (if ok then fl2 else false)) flag
            rest.foldlM
              (fun fl row => do
                let items2 ← pyIter row
                items2.foldlM
                  (fun fl2 dat => do
                    let ok ← pyInRange mn mx dat
                    return (if ok then fl2 else false)) fl) fl2) = _
          rw [pyIter]
          simp only [exceptOkBind]
          rw [flat_scan_ok mn mx items flag
            (fun s hs => by
              have h2 := hwf.1
              rw [List.all_eq_true] at h2
              exact h2 s hs)]
          simp only [exceptOkBind]
          rw [ih _ hwf.2]
          simp only [List.map_cons, List.flatten_cons, List.all_append]
          rw [Bool.and_assoc]

theorem rangeScan_ok (tn : String) (mn mx : Int) (v : PyVal) (flag : Bool)
    (hwfB : shapeB tn v = true) :
    rangeScan tn mn mx v flag =
      .ok (flag && (scalarsOf tn v).all (inRangeB mn mx)) := by
  rw [shapeB.eq_def] at hwfB
  by_cases hll : hasSub "List[List" tn = true
  · rw [if_pos hll] at hwfB
    match v, hwfB with
    | .list rows, hwfB =>
        rw [rangeScan]
        simp only [hll, if_true]
        show (do
          let rows2 ← pyIter (PyVal.list rows)
          rows2.foldlM
            (fun fl row => do
              let items ← pyIter row
              items.foldlM
                (fun fl2 dat => do
                  let ok ← pyInRange mn mx dat
                  return (if ok then fl2 else false)) fl) flag) = _
        rw [pyIter]
        simp only [exceptOkBind]
        rw [nested_scan_ok mn mx rows flag hwfB]
        rw [scalarsOf, if_pos hll]
  · rw [if_neg hll] at hwfB
    by_cases hl : hasSub "List" tn = true
    · rw [if_pos hl] at hwfB
      match v, hwfB with
      | .list items, hwfB =>
          rw [rangeScan]
          simp only [hll, Bool.false_eq_true, if_false, hl, if_true]
          show (do
            let its ← pyIter (PyVal.list items)
            its.foldlM
              (fun fl dat => do
                let ok ← pyInRange mn mx dat
                return (if ok then fl else false)) flag) = _
          rw [pyIter]
          simp only [exceptOkBind]
          rw [flat_scan_ok mn mx items flag
            (fun s hs => by
              rw [List.all_eq_true] at hwfB
              exact hwfB s hs)]
          rw [scalarsOf, if_neg hll, if_pos hl]
    · rw [if_neg hl] at hwfB
      obtain ⟨q, hq⟩ := Option.isSome_iff_exists.mp hwfB
      rw [rangeScan]
      simp only [hll, Bool.false_eq_true, if_false, hl]
      show (do
        let ok ← pyInRange mn mx v
        return (if ok then flag else false)) = _
      have hin : pyInRange mn mx v =
          .ok (decide ((mn : Rat) ≤ q ∧ q ≤ (mx : Rat))) := by
        rw [pyInRange, hq]
      rw [hin]
      simp only [exceptOkBind]
      have hll2 : hasSub "List[List" tn = false := by simpa using hll
      have hl2 : hasSub "List" tn = false := by simpa using hl
      have hsc : scalarsOf tn v = [v] := by
        rw [scalarsOf.eq_def]
        simp only [hll2, hl2, Bool.false_eq_true, if_false]
      rw [hsc]
      have hb : inRangeB mn mx v = decide ((mn : Rat) ≤ q ∧ q ≤ (mx : Rat)) := by
        rw [inRangeB, hq]
      simp only [List.all_cons, List.all_nil, hb]
      cases hdec : decide ((mn : Rat) ≤ q ∧ q ≤ (mx : Rat)) with
      | false => simp [exceptPureEq]
      | true => simp [exceptPureEq]

theorem checkintrange_fold (args : List Argument) :
    ∀ (ta : List (String × PyVal)) (flag : Bool),
      (∀ p ∈ ta, rangeWFCore (findArg args p.1) p.2 = true) →
      ta.foldlM
        (fun flag p => do
          let a ← findArg args p.1
          if hasSub "int" (remove_const a.typename) ||
              hasSub "uint" (remove_const a.typename) then do
            let b ← npIinfo (gettypename (remove_const a.typename))
            rangeScan (remove_const a.typename) b.1 b.2 p.2 flag
          else
            return flag) flag =
        .ok (flag && ta.all (fun p => rangeEntryOKCore (findArg args p.1) p.2)) := by
  intro ta
  induction ta with
  | nil => intro flag _; simp [exceptPureEq]
  | cons p rest ih =>
      intro flag hwf
      have hp := hwf p (List.mem_cons_self _ _)
      simp only [List.foldlM_cons]
      cases hfa : findArg args p.1 with
      | error e =>
          rw [hfa] at hp
          have hfalse : (false : Bool) = true := hp
          cases hfalse
      | ok a =>
          rw [hfa] at hp
          simp only [exceptOkBind]
          replace hp : (if hasSub "int" (remove_const a.typename) ||
              hasSub "uint" (remove_const a.typename) then
              (npIinfo (gettypename (remove_const a.typename))).isOk &&
                shapeB (remove_const a.typename) p.2
            else true) = true := hp
          cases hcond : (hasSub "int" (remove_const a.typename) ||
              hasSub "uint" (remove_const a.typename)) with
          | false =>
              rw [hcond] at hp
              simp only [hcond, Bool.false_eq_true, if_false, pure_bind]
              rw [ih _ (fun q hq => hwf q (List.mem_cons_of_mem _ hq))]
              have hent : rangeEntryOKCore (Except.ok a) p.2 = true := by
                show (if hasSub "int" (remove_const a.typename) ||
                    hasSub "uint" (remove_const a.typename) then
                    rangeEntryVal (npIinfo (gettypename (remove_const a.typename)))
                      (remove_const a.typename) p.2
                  else true) = true
                rw [hcond]
                rfl
              simp only [List.all_cons]
              rw [hfa, hent, Bool.true_and]
          | true =>
              rw [hcond] at hp
              simp only [if_true] at hp
              rw [Bool.and_eq_true] at hp
              simp only [hcond, if_true]
              cases hni : npIinfo (gettypename (remove_const a.typename)) with
              | error e2 =>
                  rw [hni] at hp
                  have hfalse : (false : Bool) = true := hp.1
                  cases hfalse
              | ok b =>
                  simp only [exceptOkBind]
                  rw [rangeScan_ok (remove_const a.typename) b.1 b.2 p.2 flag hp.2]
                  simp only [exceptOkBind]
                  rw [ih _ (fun q hq => hwf q (List.mem_cons_of_mem _ hq))]
                  have hent : rangeEntryOKCore (Except.ok a) p.2 =
                      (scalarsOf (remove_const a.typename) p.2).all
                        (inRangeB b.1 b.2) := by
                    show (if hasSub "int" (remove_const a.typename) ||
                        hasSub "uint" (remove_const a.typename) then
                        rangeEntryVal (npIinfo (gettypename (remove_const a.typename)))
                          (remove_const a.typename) p.2
                      else true) = _
                    rw [hcond, if_pos rfl, hni]
                    rfl
                  simp only [List.all_cons]
                  rw [hfa, hent, Bool.and_assoc]

/-- Claim C8: `checkintrange` accepts every test record whose error flag is
set, regardless of its values; for a record whose error flag is not set, it
accepts iff every scalar value of every integer/unsigned-typed argument
(through list and list-of-list nesting) lies within `[min, max]` of the
type's declared bit width (`specRangeOK`). -/
theorem c8_checkintrange_spec (ta : List (String × PyVal)) (args : List Argument)
    (hwf : ∀ p ∈ ta, rangeWFCore (findArg args p.1) p.2 = true) :
    checkintrange ta true args = .ok true ∧
    (checkintrange ta false args = .ok true ↔ specRangeOK args ta = true) := by
  constructor
  · rfl
  · have hrun : checkintrange ta false args =
        .ok (true && ta.all (fun p => rangeEntryOKCore (findArg args p.1) p.2)) := by
      rw [checkintrange]
      simp only [Bool.false_eq_true, if_false]
      exact checkintrange_fold args ta true hwf
    rw [hrun, specRangeOK]
    simp only [Bool.true_and]
    constructor
    · intro h
      injection h
    · intro h
      rw [h]

/-- Witness for C8 at a `List[int8_t]` argument with boundary values. -/
theorem c8_witness :
    checkintrange [("p", PyVal.list [PyVal.int 127, PyVal.int (-128)])] true
      [⟨"p", "List[int8_t]", "in", "default"⟩] = .ok true ∧
    (checkintrange [("p", PyVal.list [PyVal.int 127, PyVal.int (-128)])] false
      [⟨"p", "List[int8_t]", "in", "default"⟩] = .ok true ↔
      specRangeOK [⟨"p", "List[int8_t]", "in", "default"⟩]
        [("p", PyVal.list [PyVal.int 127, PyVal.int (-128)])] = true) :=
  c8_checkintrange_spec [("p", PyVal.list [PyVal.int 127, PyVal.int (-128)])]
    [⟨"p", "List[int8_t]", "in", "default"⟩] (by decide)
